import Mathlib

/-!
# RockSwap board-resolution engine: verification of the specification

This file shallowly embeds the core of the RockSwap tile-matching engine
(TypeScript sources under `src/`) in Lean 4 and settles a list of claims
about it.

The repository contains several draft variants of the same modules,
separated by document markers.  Each definition below records, in its doc
comment, exactly which file and draft it is translated from.

Conventions of the embedding:
* a board cell is a JavaScript `number`; empty cells are `-1`, tiles are
  `color | flags` with `color ∈ [0, 6)`, `FLAG_STAR = 256` (a.k.a.
  `FLAG_POWER`), `FLAG_DIAMOND = 512` (a.k.a. `FLAG_HYPERCUBE`);
* JavaScript bitwise tests on possibly-negative numbers are reproduced
  with `Int.emod` (e.g. `(-1 & 0xff) = 255` in JS and
  `Int.emod (-1) 256 = 255` here);
* mutable `number[][]` boards become a structure carrying the dimensions
  plus a total cell function; in-place mutation becomes functional update;
* imperative `while` loops over a line become fuel-based structural
  recursion, with the fuel instantiated to the line length (each loop
  iteration consumes at least one cell, so this is exact);
* imperative marking loops that only set mask entries to `true` are
  rendered either as folds over the row-major position list (when
  marking order can matter, as in `expandForStarRocks`) or as the
  equivalent pointwise predicate (when it cannot).
-/

namespace RockSwap

/-! ## Cell encoding

Translated from `src/core/cell.ts` (the numeric draft, `part_004`:
`FLAG_STAR`, `FLAG_DIAMOND`, `COLOR_MASK`, `baseColor`, `isEmpty`,
`isStarRock`, `isDiamondRock`).  The gem-era draft
(`src/src/src/core/cell.ts`, lines 16-33) defines the same bits under the
names `FLAG_POWER`/`FLAG_HYPERCUBE`/`isPowerGem`/`isHypercube`. -/

/-- `FLAG_STAR = 1 << 8` (`FLAG_POWER` in the gem-era draft). -/
def FLAG_STAR : Int := 256

/-- `FLAG_DIAMOND = 1 << 9` (`FLAG_HYPERCUBE` in the gem-era draft). -/
def FLAG_DIAMOND : Int := 512

/-- `baseColor(value) = value & COLOR_MASK` with `COLOR_MASK = 0xff`.
JS `&` works on 32-bit two's complement, so for the values in play
(`≥ -1`) it agrees with `Int.emod · 256` (e.g. `baseColor (-1) = 255`). -/
def baseColor (v : Int) : Int := v.emod 256

/-- `isEmpty(value) = value < 0`. -/
def isEmptyCell (v : Int) : Bool := v < 0

/-- `isStarRock(value) = (value & FLAG_STAR) !== 0`: bit 8 of the 32-bit
two's complement representation, i.e. `value mod 512 ∈ [256, 512)`. -/
def isStarRock (v : Int) : Bool := 256 ≤ v.emod 512

/-- `isDiamondRock(value) = (value & FLAG_DIAMOND) !== 0`: bit 9, i.e.
`value mod 1024 ∈ [512, 1024)`.  `isHypercube` in the gem-era drafts. -/
def isDiamondRock (v : Int) : Bool := 512 ≤ v.emod 1024

/-- Alias used by the gem-era drafts (`match.ts`, `swap.ts`). -/
def isHypercube (v : Int) : Bool := isDiamondRock v

/-! ## Boards and masks

A `number[][]` board of fixed dimensions becomes dimensions plus a total
cell function (out-of-range reads never happen on the guarded paths). -/

/-- A rectangular numeric board: `rows × cols` of JS numbers. -/
structure BoardI where
  rows : Nat
  cols : Nat
  cell : Int → Int → Int

/-- A boolean mask over board coordinates, represented by the list of
its `true` cells (a `boolean[][]` is exactly its set of `true`
entries; the imperative code only ever reads single entries). -/
abbrev ClearMask := List (Int × Int)

/-- Mask entry lookup: `mask[r][c] === true`. -/
def mAt (m : ClearMask) (r c : Int) : Bool := decide ((r, c) ∈ m)

/-- `mask[r][c] = true`. -/
def maskSet (m : ClearMask) (r c : Int) : ClearMask := (r, c) :: m

/-- `mask[r][c] = false`. -/
def maskUnset (m : ClearMask) (r c : Int) : ClearMask :=
  m.filter fun q => !(q == (r, c))

/-- `inBounds(board, r, c)` as in `swap.ts` / `scoring.ts`. -/
def inBoundsB (b : BoardI) (r c : Int) : Bool :=
  0 ≤ r && r < (b.rows : Int) && 0 ≤ c && c < (b.cols : Int)

/-- Functional update of one board cell (models `board[r][c] = v`). -/
def setCell (b : BoardI) (r c v : Int) : BoardI :=
  { b with cell := fun r' c' => if r' = r ∧ c' = c then v else b.cell r' c' }

/-- Row-major list of all in-bounds positions, as scanned by the
`for (r) for (c)` loops. -/
def allPos (rows cols : Nat) : List (Int × Int) :=
  (List.range rows).flatMap fun r =>
    (List.range cols).map fun c => (Int.ofNat r, Int.ofNat c)

/-- The `r`-th row of the board as a JS line (`match.ts` builds such
lines; the column loops read `board[r][c]` directly, which over a
rectangular board is the same as scanning the extracted column line). -/
def rowLine (b : BoardI) (r : Int) : List Int :=
  (List.range b.cols).map fun c => b.cell r (Int.ofNat c)

/-- The `c`-th column of the board as a line. -/
def colLine (b : BoardI) (c : Int) : List Int :=
  (List.range b.rows).map fun r => b.cell (Int.ofNat r) c

/-! ## Run scanner, gem-era draft

Translated from `src/src/core/match.ts`, second draft (lines 194-382):
`pickRunColorRow`/`pickRunColorCol`, `matchesColor`, `findMatchesMask`,
`findMatches`.  The `while` loops become fuel recursion (`scanSegsF`),
fuel = line length.  A run segment is recorded as `(start, len)`. -/

/-- Lookahead of `pickRunColorRow`/`pickRunColorCol` past the first cell:
scan until an empty cell (`-1` result) or the first non-hypercube
(its `baseColor`). -/
def pickRunColorTail : List Int → Int
  | [] => -1
  | v :: rest =>
    if v < 0 then -1
    else if isHypercube v then pickRunColorTail rest
    else baseColor v

/-- `pickRunColorRow(row, startC, cols)` on the line suffix starting at
`startC` (the caller guarantees the head is non-empty). -/
def pickRunColor : List Int → Int
  | [] => -1
  | v :: rest => if isHypercube v then pickRunColorTail rest else baseColor v

/-- `matchesColor(v, color)`. -/
def matchesColor (v color : Int) : Bool :=
  if v < 0 then false else isHypercube v || baseColor v == color

/-- Length of the longest prefix whose cells all continue a run of
`color` (the inner `while` of `findMatchesMask`). -/
def countMatching (color : Int) : List Int → Nat
  | [] => 0
  | v :: rest => if matchesColor v color then countMatching color rest + 1 else 0

/-- The outer `while (c < cols)` loop of the gem-era `findMatchesMask`,
restricted to one line.  `i` is the index of the head of the remaining
line; emits `(start, len)` for every run of length ≥ 3. -/
def scanSegsF : Nat → List Int → Nat → List (Nat × Nat)
  | 0, _, _ => []
  | _ + 1, [], _ => []
  | fuel + 1, v :: rest, i =>
    if v < 0 then scanSegsF fuel rest (i + 1)
    else
      let color := pickRunColor (v :: rest)
      if color < 0 then scanSegsF fuel rest (i + 1)
      else
        let k := countMatching color rest
        let tail := scanSegsF fuel (rest.drop k) (i + (k + 1))
        if 3 ≤ k + 1 then (i, k + 1) :: tail else tail

/-- Run segments of one line (fuel instantiated to the line length: each
loop iteration consumes at least one cell). -/
def scanSegs (l : List Int) : List (Nat × Nat) := scanSegsF l.length l 0

/-- Does index `j` fall inside segment `s = (start, len)`? -/
def inSeg (j : Int) (s : Nat × Nat) : Bool :=
  (s.1 : Int) ≤ j && j < (s.1 : Int) + (s.2 : Int)

/-- Gem-era `findMatchesMask` (match.ts draft 2, lines 262-341), stated
pointwise: the imperative `markRow`/`markCol` loops only ever set entries
to `true`, so the final mask is exactly "this in-bounds cell lies in a
row run or in a column run". -/
def findMatchesMask2 (b : BoardI) : Int → Int → Bool := fun r c =>
  inBoundsB b r c &&
  ((scanSegs (rowLine b r)).any (inSeg c) || (scanSegs (colLine b c)).any (inSeg r))

/-- Gem-era `findMatches`: row-major list of masked cells. -/
def findMatches2 (b : BoardI) : List (Int × Int) :=
  (allPos b.rows b.cols).filter fun p => findMatchesMask2 b p.1 p.2

/-! ### The specification's walk, as an independent definition

Spec §4.1 describes the scanner as a left-to-right walk: "Empty cells
break any in-progress run.  A run's adopted color is the color of the
first non-Wildcard tile encountered in the contiguous block; Wildcard
tiles before that point do not fix a color.  A tile continues the
current run iff it is a Wildcard, or it is non-Wildcard and its base
color equals the adopted color."  The next definitions state that walk
directly from the spec's words — independently of the implementation's
lookahead-and-count structure — so the scanner can be proven equivalent
to it. -/

/-- Reading a line at an index, `-1` (Empty) out of range. -/
def lineAt (l : List Int) (j : Nat) : Int := l.getD j (-1)

/-- How many leading cells continue the current block, given the block's
adopted color so far (`none` while only Wildcards have been seen: the
first non-Wildcard then fixes the color and continues). -/
def specExtend : List Int → Option Int → Nat
  | [], _ => 0
  | v :: rest, none =>
    if v < 0 then 0
    else if isHypercube v then 1 + specExtend rest none
    else 1 + specExtend rest (some (baseColor v))
  | v :: rest, some color =>
    if v < 0 then 0
    else if isHypercube v then 1 + specExtend rest (some color)
    else if baseColor v = color then 1 + specExtend rest (some color)
    else 0

/-- The walk of spec §4.1: skip empty cells; at a non-empty cell start a
block with undetermined adopted color and take every continuing tile;
the breaking tile starts the next block.  All blocks are returned as
`(start, length)`, qualifying or not. -/
def specWalkBlocksF : Nat → List Int → Nat → List (Nat × Nat)
  | 0, _, _ => []
  | _ + 1, [], _ => []
  | fuel + 1, v :: rest, i =>
    if v < 0 then specWalkBlocksF fuel rest (i + 1)
    else
      let n := specExtend (v :: rest) none
      (i, n) :: specWalkBlocksF fuel ((v :: rest).drop n) (i + n)

/-- The walk's block decomposition of a whole line. -/
def specWalkBlocks (l : List Int) : List (Nat × Nat) :=
  specWalkBlocksF l.length l 0

/-- A block qualifies (amended rule): at least 3 cells and at least one
non-Wildcard tile. -/
def specQualifies (l : List Int) (s : Nat × Nat) : Prop :=
  3 ≤ s.2 ∧ ∃ j, j < s.2 ∧ isHypercube (lineAt l (s.1 + j)) = false

/-! ## Run scanner, rock-era draft

Translated from `src/src/core/match.ts`, first draft (lines 1-193):
`findWildcardRunsInLine` and its `findMatchesMask`. -/

/-- The `colors` set of `findWildcardRunsInLine` (insertion-ordered, as a
JS `Set`): base colors of the non-empty non-wildcard cells. -/
def colorsInLine (l : List Int) : List Int :=
  l.foldl
    (fun acc v =>
      if v < 0 then acc
      else if isHypercube v then acc
      else if baseColor v ∈ acc then acc else acc ++ [baseColor v])
    []

/-- Length of the longest non-empty (`≥ 0`) prefix. -/
def countNonNeg : List Int → Nat
  | [] => 0
  | v :: rest => if 0 ≤ v then countNonNeg rest + 1 else 0

/-- The "all wildcards / empties" special case of
`findWildcardRunsInLine`: every contiguous non-empty stretch of length
≥ 3 counts.  Segments are `(start, len)` (the source stores
`{start, end}` with `end = start + len - 1`). -/
def allWildSegsF : Nat → List Int → Nat → List (Nat × Nat)
  | 0, _, _ => []
  | _ + 1, [], _ => []
  | fuel + 1, v :: rest, i =>
    if v < 0 then allWildSegsF fuel rest (i + 1)
    else
      let k := countNonNeg rest
      let tail := allWildSegsF fuel (rest.drop k) (i + (k + 1))
      if 3 ≤ k + 1 then (i, k + 1) :: tail else tail

/-- Can this cell belong to a run of `color` (non-empty, and wildcard or
of that base color)?  This is both the "good start" test of the skip
loop and the continuation test of the take loop. -/
def goodForColor (color v : Int) : Bool :=
  0 ≤ v && (isHypercube v || baseColor v == color)

/-- Length of the longest prefix of cells good for `color`. -/
def countGood (color : Int) : List Int → Nat
  | [] => 0
  | v :: rest => if goodForColor color v then countGood color rest + 1 else 0

/-- The per-color `while (i < n)` loop of `findWildcardRunsInLine`:
skip cells that cannot belong to a run of `color`, then take the maximal
stretch of wild-or-`color` cells; emit it when its length is ≥ 3. -/
def colorRunsF : Nat → Int → List Int → Nat → List (Nat × Nat)
  | 0, _, _, _ => []
  | _ + 1, _, [], _ => []
  | fuel + 1, color, v :: rest, i =>
    if goodForColor color v then
      let k := countGood color rest
      let tail := colorRunsF fuel color (rest.drop k) (i + (k + 1))
      if 3 ≤ k + 1 then (i, k + 1) :: tail else tail
    else colorRunsF fuel color rest (i + 1)

/-- `findWildcardRunsInLine(line)` (match.ts draft 1, lines 55-126). -/
def findWildcardRunsInLine (l : List Int) : List (Nat × Nat) :=
  if colorsInLine l = [] then allWildSegsF l.length l 0
  else (colorsInLine l).flatMap fun color => colorRunsF l.length color l 0

/-- Rock-era `findMatchesMask` (match.ts draft 1, lines 128-164), stated
pointwise like `findMatchesMask2` (the marking loops only set `true`). -/
def findMatchesMask1 (b : BoardI) : Int → Int → Bool := fun r c =>
  inBoundsB b r c &&
  ((findWildcardRunsInLine (rowLine b r)).any (inSeg c) ||
   (findWildcardRunsInLine (colLine b c)).any (inSeg r))

/-! ## Clear & create engine

Translated from `src/src/core/scoring.ts`, first draft (lines 1-406):
`findAllRuns`, `pickSpecialRock`, `applySpecialCreation`,
`expandForStarRocks`, `expandForDiamondRocks`, `applyClearMask`,
`buildBaseMask`, `clearAndScore`. -/

/-- Length of the longest prefix of cells whose `baseColor` equals
`color` (inner `while` of `findAllRuns`; note the source does not test
emptiness here — an empty cell has `baseColor (-1) = 255`, which never
equals a palette color, faithfully reproduced by `Int.emod`). -/
def countSameBase (color : Int) : List Int → Nat
  | [] => 0
  | v :: rest => if baseColor v == color then countSameBase color rest + 1 else 0

/-- One line of `findAllRuns`: maximal same-`baseColor` stretches of
length ≥ 3, as `(start, len, color)`. -/
def lineRunsF : Nat → List Int → Nat → List (Nat × Nat × Int)
  | 0, _, _ => []
  | _ + 1, [], _ => []
  | fuel + 1, v :: rest, i =>
    if v < 0 then lineRunsF fuel rest (i + 1)
    else
      let color := baseColor v
      let k := countSameBase color rest
      let tail := lineRunsF fuel (rest.drop k) (i + (k + 1))
      if 3 ≤ k + 1 then (i, k + 1, color) :: tail else tail

/-- Run kind tag, `"H" | "V"` in the source. -/
inductive RunKind
  | H
  | V
deriving DecidableEq, Repr

/-- The `Run` record of scoring.ts (`row = -1` for vertical runs,
`col = -1` for horizontal ones, exactly as the source fills them). -/
structure Run where
  kind : RunKind
  color : Int
  row : Int
  col : Int
  start : Int
  len : Nat
deriving DecidableEq, Repr

/-- `findAllRuns(board)`: horizontal runs (rows top to bottom), then
vertical runs (columns left to right). -/
def findAllRuns (b : BoardI) : List Run :=
  ((List.range b.rows).flatMap fun r =>
    (lineRunsF (rowLine b (r : Int)).length (rowLine b (r : Int)) 0).map fun s =>
      { kind := RunKind.H, color := s.2.2, row := (r : Int), col := -1,
        start := (s.1 : Int), len := s.2.1 }) ++
  ((List.range b.cols).flatMap fun c =>
    (lineRunsF (colLine b (c : Int)).length (colLine b (c : Int)) 0).map fun s =>
      { kind := RunKind.V, color := s.2.2, row := -1, col := (c : Int),
        start := (s.1 : Int), len := s.2.1 })

/-- The special-rock tag, `"star" | "diamond"` in the source. -/
inductive RockType
  | star
  | diamond
deriving DecidableEq, Repr

/-- The `SpecialRock` record `{ r, c, type }`. -/
structure SpecialRock where
  r : Int
  c : Int
  type : RockType
deriving DecidableEq, Repr

/-- The `isMatched` helper of `pickSpecialRock`. -/
def isMatched (b : BoardI) (m : ClearMask) (r c : Int) : Bool :=
  inBoundsB b r c && mAt m r c

/-- Is the preferred cell inside the run (the per-kind coordinate tests
of `pickSpecialRock`)? -/
def runContains (run : Run) (p : Int × Int) : Bool :=
  match run.kind with
  | RunKind.H => p.1 == run.row && run.start ≤ p.2 && p.2 < run.start + (run.len : Int)
  | RunKind.V => p.2 == run.col && run.start ≤ p.1 && p.1 < run.start + (run.len : Int)

/-- Fallback placement for a ≥ 5 run: the run's center cell
`start + (len - 1) / 2`. -/
def runCenter (run : Run) : Int × Int :=
  match run.kind with
  | RunKind.H => (run.row, run.start + (((run.len - 1) / 2 : Nat) : Int))
  | RunKind.V => (run.start + (((run.len - 1) / 2 : Nat) : Int), run.col)

/-- Fallback placement for a 4 run: `start + 1`. -/
def runStartPlus1 (run : Run) : Int × Int :=
  match run.kind with
  | RunKind.H => (run.row, run.start + 1)
  | RunKind.V => (run.start + 1, run.col)

/-- Placement choice shared by both branches of `pickSpecialRock`: the
preferred cell when it lies in the run and is matched, else the
branch-specific fallback. -/
def choosePlacement (b : BoardI) (m : ClearMask) (pref : Option (Int × Int))
    (run : Run) (fallback : Run → Int × Int) : Int × Int :=
  match pref with
  | none => fallback run
  | some p => if runContains run p && isMatched b m p.1 p.2 then p else fallback run

/-- One iteration of the first (`Diamond Rock = 5+ run`) loop of
`pickSpecialRock`: succeeds on a run of length ≥ 5 whose placement cell
is matched. -/
def diamondTry (b : BoardI) (m : ClearMask) (pref : Option (Int × Int))
    (run : Run) : Option SpecialRock :=
  if 5 ≤ run.len then
    let p := choosePlacement b m pref run runCenter
    if isMatched b m p.1 p.2 then some ⟨p.1, p.2, RockType.diamond⟩ else none
  else none

/-- One iteration of the second (`Star Rock = 4-in-a-row ONLY`) loop of
`pickSpecialRock`: succeeds on a run of length exactly 4 whose
placement cell is matched. -/
def starTry (b : BoardI) (m : ClearMask) (pref : Option (Int × Int))
    (run : Run) : Option SpecialRock :=
  if run.len = 4 then
    let p := choosePlacement b m pref run runStartPlus1
    if isMatched b m p.1 p.2 then some ⟨p.1, p.2, RockType.star⟩ else none
  else none

/-- `pickSpecialRock(board, mask, preferred)` (scoring.ts draft 1, lines
140-262): the first run of length ≥ 5 with a matched placement gives a
diamond; otherwise the first run of length exactly 4 with a matched
placement gives a star. -/
def pickSpecialRock (b : BoardI) (m : ClearMask) (pref : Option (Int × Int)) :
    Option SpecialRock :=
  match (findAllRuns b).findSome? (diamondTry b m pref) with
  | some s => some s
  | none => (findAllRuns b).findSome? (starTry b m pref)

/-- `applySpecialCreation(board, mask, special)` (lines 268-281): write
`color | FLAG` at the placement (the base color is in `[0, 256)`, so the
bitwise or is addition) and unmark that cell.  Returns the new board and
mask. -/
def applySpecialCreation (b : BoardI) (m : ClearMask) :
    Option SpecialRock → BoardI × ClearMask
  | none => (b, m)
  | some s =>
    if inBoundsB b s.r s.c then
      let v := b.cell s.r s.c
      if v < 0 then (b, m)
      else
        let color := baseColor v
        (setCell b s.r s.c
           (color + (if s.type = RockType.star then FLAG_STAR else FLAG_DIAMOND)),
         maskUnset m s.r s.c)
    else (b, m)

/-- The 3×3 neighborhood offsets in the `dr`/`dc` loop order. -/
def nbhdOffsets : List (Int × Int) :=
  [(-1, -1), (-1, 0), (-1, 1), (0, -1), (0, 0), (0, 1), (1, -1), (1, 0), (1, 1)]

/-- Mark the clipped 3×3 neighborhood of `(r, c)`. -/
def mark3x3 (b : BoardI) (m : ClearMask) (r c : Int) : ClearMask :=
  nbhdOffsets.foldl
    (fun m' d =>
      if inBoundsB b (r + d.1) (c + d.2) then maskSet m' (r + d.1) (c + d.2)
      else m')
    m

/-- `expandForStarRocks(board, mask)` (lines 287-298).  The source marks
while scanning row-major, so a star marked by an earlier star also
expands; the fold reproduces that order faithfully. -/
def expandForStarRocks (b : BoardI) (m : ClearMask) : ClearMask :=
  (allPos b.rows b.cols).foldl
    (fun m' p =>
      if mAt m' p.1 p.2 && isStarRock (b.cell p.1 p.2) then mark3x3 b m' p.1 p.2
      else m')
    m

/-- The `wipe` list of `expandForDiamondRocks`: base colors of the
masked diamond rocks, in scan order without duplicates. -/
def diamondWipeColors (b : BoardI) (m : ClearMask) : List Int :=
  (allPos b.rows b.cols).foldl
    (fun acc p =>
      if mAt m p.1 p.2 && isDiamondRock (b.cell p.1 p.2) then
        if baseColor (b.cell p.1 p.2) ∈ acc then acc
        else acc ++ [baseColor (b.cell p.1 p.2)]
      else acc)
    []

/-- `expandForDiamondRocks(board, mask)` (lines 300-322): wipe every
non-empty board cell whose base color is that of some masked diamond.
The marking double loop only sets entries to `true`, so appending the
wiped cells to the mask set is faithful. -/
def expandForDiamondRocks (b : BoardI) (m : ClearMask) : ClearMask :=
  let wipe := diamondWipeColors b m
  if wipe = [] then m
  else
    m ++ (allPos b.rows b.cols).filter fun p =>
      0 ≤ b.cell p.1 p.2 && decide (baseColor (b.cell p.1 p.2) ∈ wipe)

/-- `applyClearMask(board, mask)` (lines 328-340): empty every masked
non-empty in-bounds cell and count them. -/
def applyClearMask (b : BoardI) (m : ClearMask) : BoardI × Nat :=
  (⟨b.rows, b.cols, fun r c =>
      if inBoundsB b r c && mAt m r c && 0 ≤ b.cell r c then -1 else b.cell r c⟩,
   (allPos b.rows b.cols).countP fun p => mAt m p.1 p.2 && 0 ≤ b.cell p.1 p.2)

/-- `buildBaseMask(board, matches)` (lines 56-63): the in-bounds match
cells are marked. -/
def buildBaseMask (b : BoardI) (ms : List (Int × Int)) : ClearMask :=
  ms.filter fun p => inBoundsB b p.1 p.2

/-- `USER_SCORING.perCell`. -/
def perCellPoints : Nat := 10

/-- Result of `clearAndScore`: the mutated board plus the returned
points. -/
structure ClearResult where
  board : BoardI
  points : Nat

/-- `clearAndScore(board, matches, preferred)` (scoring.ts draft 1,
lines 389-406). -/
def clearAndScore (b : BoardI) (ms : List (Int × Int))
    (pref : Option (Int × Int)) : ClearResult :=
  if ms.isEmpty then ⟨b, 0⟩
  else
    let mask0 := buildBaseMask b ms
    let special := pickSpecialRock b mask0 pref
    let bm := applySpecialCreation b mask0 special
    let mask2 := expandForStarRocks bm.1 bm.2
    let mask3 := expandForDiamondRocks bm.1 mask2
    let cleared := applyClearMask bm.1 mask3
    ⟨cleared.1, cleared.2 * perCellPoints⟩

/-! ## Swap validator

Translated from `src/src/core/swap.ts`, second draft (lines 91-186): the
`trySwap` that commits a swap iff it creates at least one match anywhere
(using the wildcard-aware matcher).  The hypercube branch described in
its doc comment (and the orphaned block at lines 189-249) is not part of
the function body.  In-place mutation/revert becomes returning either
the swapped or the original board. -/

/-- `isAdjacent`: Manhattan distance exactly 1. -/
def isAdjacentRC (r1 c1 r2 c2 : Int) : Bool :=
  (r1 - r2).natAbs + (c1 - c2).natAbs == 1

/-- The tentatively swapped board (`row1[c1] = b; row2[c2] = a`). -/
def swapCells (b : BoardI) (r1 c1 r2 c2 : Int) : BoardI :=
  setCell (setCell b r1 c1 (b.cell r2 c2)) r2 c2 (b.cell r1 c1)

/-- `trySwap(board, r1, c1, r2, c2)` (swap.ts draft 2, lines 145-186),
returning the boolean result together with the board after the call. -/
def trySwap (b : BoardI) (r1 c1 r2 c2 : Int) : Bool × BoardI :=
  if ¬(inBoundsB b r1 c1 && inBoundsB b r2 c2) then (false, b)
  else if ¬isAdjacentRC r1 c1 r2 c2 then (false, b)
  else
    let a := b.cell r1 c1
    let bv := b.cell r2 c2
    if isEmptyCell a || isEmptyCell bv then (false, b)
    else
      let swapped := swapCells b r1 c1 r2 c2
      if 0 < (findMatches2 swapped).length then (true, swapped) else (false, b)

/-! ## Initial board creation

Translated from `src/src/core/grid.ts`: `CellKind`, `Cell`, `isRock`,
`makeRandomRock`, `wouldCreateMatch`, `createInitialBoard`.  This draft
stores cells as records `{ kind, color }` on a fixed 8×8 board
(`BOARD_ROWS = BOARD_COLS = 8`).  The random draw of `makeRandomRock`
is modelled by a stream of color rolls consumed left to right, and the
unbounded `while (true)` re-roll loop by a fuel bound on the number of
attempts per cell: a run of the source that terminates is exactly a run
of this model that returns `some` for a large enough fuel. -/

/-- `CellKind` (cell.ts record draft, `part_002`). -/
inductive CellKind
  | Empty
  | Rock
  | StarRock
  | DiamondRock
deriving DecidableEq, Repr

/-- `Cell` record: `{ kind, color }`. -/
structure Cell where
  kind : CellKind
  color : Nat
deriving DecidableEq, Repr

/-- `isRock(cell)`: any rock variant. -/
def isRock (cell : Cell) : Bool :=
  cell.kind == CellKind.Rock || cell.kind == CellKind.StarRock ||
    cell.kind == CellKind.DiamondRock

/-- A record board: total function from coordinates to cells (the
source array is rectangular 8×8 and never read out of bounds). -/
abbrev BoardC := Nat → Nat → Cell

/-- The all-`Empty` starting board of `createInitialBoard`. -/
def emptyBoardC : BoardC := fun _ _ => ⟨CellKind.Empty, 0⟩

/-- `board[r][c] = v` as functional update. -/
def updateC (b : BoardC) (r c : Nat) (v : Cell) : BoardC :=
  fun r' c' => if r' = r ∧ c' = c then v else b r' c'

/-- `makeRandomRock()`: `Math.floor(Math.random() * 6)` is a color in
`[0, 6)`; the draw is replaced by the next roll of the stream. -/
def makeRandomRock (roll : Nat) : Cell := ⟨CellKind.Rock, roll % 6⟩

/-- `wouldCreateMatch(board, r, c)` (grid.ts lines 34-63): does the cell
at `(r, c)` complete a horizontal or vertical run of 3 equal-colored
rocks with its two left / two upper neighbors? -/
def wouldCreateMatch (b : BoardC) (r c : Nat) : Bool :=
  let cell := b r c
  if !isRock cell then false
  else
    (2 ≤ c && isRock (b r (c - 1)) && isRock (b r (c - 2)) &&
      (b r (c - 1)).color == cell.color && (b r (c - 2)).color == cell.color) ||
    (2 ≤ r && isRock (b (r - 1) c) && isRock (b (r - 2) c) &&
      (b (r - 1) c).color == cell.color && (b (r - 2) c).color == cell.color)

/-- The `while (true)` re-roll loop at one cell: place a rock from the
next roll; keep it unless it completes a run, in which case re-roll.
`fuel` bounds the attempts; `idx` is the position in the roll stream.
Returns the updated board and next stream position. -/
def placeAt (rolls : Nat → Nat) : Nat → BoardC → Nat → Nat → Nat →
    Option (BoardC × Nat)
  | 0, _, _, _, _ => none
  | fuel + 1, b, idx, r, c =>
    let b' := updateC b r c (makeRandomRock (rolls idx))
    if wouldCreateMatch b' r c then placeAt rolls fuel b' (idx + 1) r c
    else some (b', idx + 1)

/-- The row-major cell order of the `for (r) for (c)` placement loop. -/
def gridPos8 : List (Nat × Nat) :=
  (List.range 8).flatMap fun r => (List.range 8).map fun c => (r, c)

/-- The placement loop of `createInitialBoard` over a list of cells. -/
def fillFrom (rolls : Nat → Nat) (fuel : Nat) :
    List (Nat × Nat) → BoardC → Nat → Option (BoardC × Nat)
  | [], b, idx => some (b, idx)
  | p :: ps, b, idx =>
    match placeAt rolls fuel b idx p.1 p.2 with
    | none => none
    | some bi => fillFrom rolls fuel ps bi.1 bi.2

/-- `createInitialBoard()` (grid.ts lines 68-86) over a roll stream,
with `fuel` bounding the re-rolls spent on any one cell. -/
def createInitialBoard (rolls : Nat → Nat) (fuel : Nat) : Option BoardC :=
  (fillFrom rolls fuel gridPos8 emptyBoardC 0).map Prod.fst

/-! ## Cascade orchestrator

Translated from `resolveBoard()` in `main.ts` (the draft stored at
`src/src/src/core/cell.ts`, lines 251-312), with the rendering,
animation and HUD calls dropped (they do not touch the board or the
loop control).  The loop guard is `pass < maxPasses` with `pass`
incremented once per iteration, so the remaining allowance
`maxPasses - pass` is the structurally decreasing fuel. -/

/-- Modelled from the spec: `collapse(board)`.  The imported module
`src/core/collapse.ts` is missing from the repository sources (only the
imports in `main.ts` and the orphaned swap.ts block survive).  Spec
§4.4: "for each column independently, compact all non-Empty cells
downward preserving their relative order, leaving Empty cells at the
top"; no randomness, no scoring. -/
def collapse (b : BoardI) : BoardI :=
  ⟨b.rows, b.cols, fun r c =>
    if inBoundsB b r c then
      let kept := (colLine b c).filter fun v => !(v < 0)
      let empties := b.rows - kept.length
      if r < (empties : Int) then -1 else kept.getD (r - (empties : Int)).toNat (-1)
    else b.cell r c⟩

/-- Modelled from the spec: `refill(board)`.  The imported module
`src/core/refill.ts` is missing from the repository sources.  Spec
§4.4: "for every remaining Empty cell, assign a new Normal tile of
uniformly random color from the palette" (6 colors); the random draws
are modelled by a per-cell roll function. -/
def refill (rolls : Int → Int → Nat) (b : BoardI) : BoardI :=
  ⟨b.rows, b.cols, fun r c =>
    if inBoundsB b r c && b.cell r c < 0 then ((rolls r c % 6 : Nat) : Int)
    else b.cell r c⟩

/-- Output of the cascade loop: final board, accumulated score, and the
number of passes that performed a clear. -/
structure ResolveOut where
  board : BoardI
  score : Nat
  passes : Nat

/-- The `while (pass < maxPasses)` loop of `resolveBoard`: scan, stop
when no match remains, otherwise clear and score (preferred cell only on
the first pass), apply the chain multiplier, collapse and refill, and
loop with `chain + 1`.  `rollsAt` supplies the refill randomness for
each pass; `fuel` is the remaining pass allowance. -/
def resolveGo (rollsAt : Nat → Int → Int → Nat) :
    Nat → BoardI → Nat → Nat → Option (Int × Int) → ResolveOut
  | 0, b, score, _, _ => ⟨b, score, 0⟩
  | fuel + 1, b, score, chain, pref =>
    let ms := findMatches2 b
    if ms.isEmpty then ⟨b, score, 0⟩
    else
      let res := clearAndScore b ms pref
      let score' := if 0 < res.points then score + res.points * chain else score
      let b' := refill (rollsAt fuel) (collapse res.board)
      let out := resolveGo rollsAt fuel b' score' (chain + 1) none
      ⟨out.board, out.score, out.passes + 1⟩

/-- `maxPasses = 80`. -/
def maxPasses : Nat := 80

/-- The cascade resolution of `resolveBoard()`: up to `maxPasses`
passes starting with `chain = 1`, the swap destination honored only on
the first pass. -/
def resolveBoard (rollsAt : Nat → Int → Int → Nat) (b : BoardI)
    (pref : Option (Int × Int)) : ResolveOut :=
  resolveGo rollsAt maxPasses b 0 1 pref

/-! ## Concrete boards used by the claims -/

/-- Build a board from explicit rows (out-of-range reads default to
`-1`; all uses are rectangular). -/
def boardOfRows (rows : List (List Int)) : BoardI :=
  ⟨rows.length, (rows.headD []).length,
   fun r c => if 0 ≤ r ∧ 0 ≤ c then (rows.getD r.toNat []).getD c.toNat (-1)
     else -1⟩

/-- 2×2 board with a Wildcard (hypercube, `512`) at (0,0); no swap on it
can form a run of 3. -/
def wildSwapBoard : BoardI := boardOfRows [[512, 0], [1, 2]]

/-- 1×5 board: a Diamond with stored base color 4 at (0,0), its mask
partners of color 1 at (0,1)-(0,2), an unmasked color-4 tile at (0,3)
and an unmasked color-1 tile at (0,4). -/
def diamondWipeBoard : BoardI := boardOfRows [[516, 1, 1, 4, 1]]

/-- The masked cells for `diamondWipeBoard`: the diamond and its two
color-1 partners. -/
def diamondWipeMatches : List (Int × Int) := [(0, 0), (0, 1), (0, 2)]

/-- 1×3 line `[Wildcard, color 1, Wildcard]`: one real tile only. -/
def oneRealBoard : BoardI := boardOfRows [[512, 1, 512]]

/-- 1×3 line of Wildcards only: the two scanner drafts disagree on it. -/
def allWildBoard : BoardI := boardOfRows [[512, 512, 512]]

/-- 4×4 board: a vertical color-1 run in column 0 ending in a
pre-existing star rock (`257`) at (2,0), and a horizontal color-0
4-run in row 3.  The 4-run creates a star at (3,1), inside the 3×3
neighborhood of the consumed star at (2,0). -/
def starSelfDestructBoard : BoardI :=
  boardOfRows [[1, 2, 3, 4], [1, 3, 4, 2], [257, 4, 2, 3], [0, 0, 0, 0]]

/-- The scanner's matches on `starSelfDestructBoard` (both runs). -/
def starSelfDestructMatches : List (Int × Int) :=
  [(0, 0), (1, 0), (2, 0), (3, 0), (3, 1), (3, 2), (3, 3)]

/-- 1×5 board holding a single color-0 run of length 5. -/
def fiveRunBoard : BoardI := boardOfRows [[0, 0, 0, 0, 0]]

/-- All five cells of `fiveRunBoard`. -/
def fiveRunMatches : List (Int × Int) := [(0, 0), (0, 1), (0, 2), (0, 3), (0, 4)]

/-- 8×8 board whose only qualifying run is the horizontal color-4 4-run
at row 3, columns 2-5; elsewhere colors alternate with period 2, so no
other line has 3 equal consecutive base colors. -/
def fourRunBoard : BoardI :=
  ⟨8, 8, fun r c =>
    if r = 3 ∧ (2 ≤ c ∧ c ≤ 5) then 4
    else 2 * r.emod 2 + c.emod 2⟩

/-- The run cells of `fourRunBoard`. -/
def fourRunMatches : List (Int × Int) := [(3, 2), (3, 3), (3, 4), (3, 5)]

/-- 3×3 board with no run and one legal swap creating a row of three:
swapping (0,1) with (1,1) turns row 0 into `[0,0,0]`. -/
def swapDemoBoard : BoardI := boardOfRows [[0, 1, 0], [1, 0, 2], [3, 4, 5]]

/-- 2×2 stable board: no match, no legal clear. -/
def stableBoard : BoardI := boardOfRows [[0, 1], [1, 0]]

/-- Roll stream painting the checkerboard `(r + c) % 2` (the stream is
consumed once per cell in row-major order since no placement ever
triggers a re-roll). -/
def checkerRolls : Nat → Nat := fun i => (i / 8 + i % 8) % 2

/-- The board produced by `createInitialBoard` on `checkerRolls` (one
attempt per cell suffices). -/
def demoInitialBoard : BoardC := (createInitialBoard checkerRolls 1).getD emptyBoardC

/-! ## Theorems -/

set_option maxRecDepth 40000

/-- **C1** (settled as a code bug).  The claim — and the doc comment of
`trySwap` itself ("Hypercube behavior: … Swap is always allowed") —
says a swap whose result involves a Wildcard is unconditionally
accepted.  The function body never tests for hypercubes (that handling
sits in an orphaned block after the function's closing brace), so a
wildcard swap that creates no qualifying run is reverted and rejected:
on `wildSwapBoard`, the in-bounds adjacent swap of the Wildcard (0,0)
with the non-empty (0,1) returns `false` and leaves the board
unchanged. -/
theorem trySwap_rejects_wildcard_swap_without_run :
    isHypercube (wildSwapBoard.cell 0 0) = true ∧
    isEmptyCell (wildSwapBoard.cell 0 0) = false ∧
    isEmptyCell (wildSwapBoard.cell 0 1) = false ∧
    (trySwap wildSwapBoard 0 0 0 1).1 = false ∧
    (trySwap wildSwapBoard 0 0 0 1).2 = wildSwapBoard :=
  ⟨by decide, by decide, by decide, by decide, rfl⟩

/-- **C2 counterexample.**  On `diamondWipeBoard` the masked Diamond at
(0,0) stores base color 4 while the non-Wildcard tiles among the masked
cells have color 1.  `clearAndScore` wipes the *unmasked color-4* cell
(0,3) and leaves the *color-1* cell (0,4) untouched — the opposite of
the claim, which says the wiped colors are exactly the partners'
color 1 and that the Wildcard's own stored color is never used. -/
theorem clearAndScore_wipes_diamond_own_color :
    isDiamondRock (diamondWipeBoard.cell 0 0) = true ∧
    baseColor (diamondWipeBoard.cell 0 0) = 4 ∧
    diamondWipeBoard.cell 0 1 = 1 ∧ diamondWipeBoard.cell 0 2 = 1 ∧
    diamondWipeBoard.cell 0 3 = 4 ∧ diamondWipeBoard.cell 0 4 = 1 ∧
    (clearAndScore diamondWipeBoard diamondWipeMatches none).board.cell 0 3 = -1 ∧
    (clearAndScore diamondWipeBoard diamondWipeMatches none).board.cell 0 4 = 1 ∧
    (clearAndScore diamondWipeBoard diamondWipeMatches none).points = 40 := by
  decide

/-- **C4** (settled as a code bug).  The claim — and scoring.ts's own
header ("Ensure newly created specials do NOT explode immediately") —
says the cell that receives a newly created special is never cleared in
the same call.  `applySpecialCreation` does unmark it, but
`expandForStarRocks` can re-mark it afterwards: on
`starSelfDestructBoard` the 4-run creates a star at (3,1) (value
`0 + 256 = 256`), the consumed pre-existing star at (2,0) expands its
3×3 neighborhood over (3,1), and `applyClearMask` then empties the
fresh special. -/
theorem clearAndScore_clears_new_special_same_call :
    pickSpecialRock starSelfDestructBoard
        (buildBaseMask starSelfDestructBoard starSelfDestructMatches) none
      = some ⟨3, 1, RockType.star⟩ ∧
    (applySpecialCreation starSelfDestructBoard
        (buildBaseMask starSelfDestructBoard starSelfDestructMatches)
        (pickSpecialRock starSelfDestructBoard
          (buildBaseMask starSelfDestructBoard starSelfDestructMatches) none)).1.cell 3 1
      = 256 ∧
    isStarRock (starSelfDestructBoard.cell 2 0) = true ∧
    mAt (buildBaseMask starSelfDestructBoard starSelfDestructMatches) 2 0 = true ∧
    findMatches2 starSelfDestructBoard = starSelfDestructMatches ∧
    (clearAndScore starSelfDestructBoard starSelfDestructMatches none).board.cell 3 1
      = -1 := by
  decide

/-- **C7.**  The concrete 4-run scenario: on the 8×8 `fourRunBoard`
(whose only scanner matches are the four run cells in row 3, columns
2-5) with preferred cell (3,4), `clearAndScore` puts an AreaClear star
(`4 + 256 = 260`) at (3,4), empties exactly the other three run cells,
returns `3 * perCellPoints = 30`, and touches no other cell. -/
theorem clearAndScore_fourRun_scenario :
    findMatches2 fourRunBoard = fourRunMatches ∧
    (clearAndScore fourRunBoard fourRunMatches (some (3, 4))).points = 30 ∧
    (clearAndScore fourRunBoard fourRunMatches (some (3, 4))).board.cell 3 4 = 260 ∧
    isStarRock 260 = true ∧ baseColor 260 = 4 ∧
    (clearAndScore fourRunBoard fourRunMatches (some (3, 4))).board.cell 3 2 = -1 ∧
    (clearAndScore fourRunBoard fourRunMatches (some (3, 4))).board.cell 3 3 = -1 ∧
    (clearAndScore fourRunBoard fourRunMatches (some (3, 4))).board.cell 3 5 = -1 ∧
    ((allPos 8 8).all fun p =>
      decide (p ∈ fourRunMatches) ||
        ((clearAndScore fourRunBoard fourRunMatches (some (3, 4))).board.cell p.1 p.2
          == fourRunBoard.cell p.1 p.2)) = true := by
  decide

/-- Helper for the cascade bound: for any fuel, the loop performs at
most `fuel` clearing passes, and performing fewer means the loop exited
because a scan found no match on the final board. -/
theorem resolveGo_bounded (rollsAt : Nat → Int → Int → Nat) :
    ∀ (fuel : Nat) (b : BoardI) (score chain : Nat) (pref : Option (Int × Int)),
      (resolveGo rollsAt fuel b score chain pref).passes ≤ fuel ∧
      ((resolveGo rollsAt fuel b score chain pref).passes < fuel →
        findMatches2 (resolveGo rollsAt fuel b score chain pref).board = []) := by
  intro fuel
  induction fuel with
  | zero =>
    intro b score chain pref
    exact ⟨Nat.le_refl 0, fun h => absurd h (Nat.not_lt_zero 0)⟩
  | succ f ih =>
    intro b score chain pref
    by_cases h : (findMatches2 b).isEmpty
    · constructor
      · simp [resolveGo, h]
      · intro _
        simpa [resolveGo, h] using List.isEmpty_iff.mp h
    · have hrec := ih
        (refill (rollsAt f) (collapse (clearAndScore b (findMatches2 b) pref).board))
        (if 0 < (clearAndScore b (findMatches2 b) pref).points then
          score + (clearAndScore b (findMatches2 b) pref).points * chain
         else score)
        (chain + 1) none
      have hres : resolveGo rollsAt (f + 1) b score chain pref =
          ⟨(resolveGo rollsAt f
              (refill (rollsAt f) (collapse (clearAndScore b (findMatches2 b) pref).board))
              (if 0 < (clearAndScore b (findMatches2 b) pref).points then
                score + (clearAndScore b (findMatches2 b) pref).points * chain
               else score)
              (chain + 1) none).board,
            (resolveGo rollsAt f
              (refill (rollsAt f) (collapse (clearAndScore b (findMatches2 b) pref).board))
              (if 0 < (clearAndScore b (findMatches2 b) pref).points then
                score + (clearAndScore b (findMatches2 b) pref).points * chain
               else score)
              (chain + 1) none).score,
            (resolveGo rollsAt f
              (refill (rollsAt f) (collapse (clearAndScore b (findMatches2 b) pref).board))
              (if 0 < (clearAndScore b (findMatches2 b) pref).points then
                score + (clearAndScore b (findMatches2 b) pref).points * chain
               else score)
              (chain + 1) none).passes + 1⟩ := by
        simp [resolveGo, h]
      rw [hres]
      exact ⟨Nat.succ_le_succ hrec.1,
        fun hlt => hrec.2 (Nat.lt_of_succ_lt_succ hlt)⟩

/-- Row-major key of a grid position (coordinates stay below 8). -/
def posKey (p : Nat × Nat) : Nat := 8 * p.1 + p.2

/-- The placement order is strictly increasing in row-major key. -/
theorem gridPos8_sorted : List.Pairwise (fun p q => posKey p < posKey q) gridPos8 := by
  decide

/-- Membership in the placement order is exactly being on the 8×8
grid. -/
theorem mem_gridPos8 {p : Nat × Nat} : p ∈ gridPos8 ↔ p.1 < 8 ∧ p.2 < 8 := by
  constructor
  · intro h
    obtain ⟨r, hr, h2⟩ := List.mem_flatMap.mp h
    obtain ⟨c, hc, h3⟩ := List.mem_map.mp h2
    rw [List.mem_range] at hr hc
    subst h3
    exact ⟨hr, hc⟩
  · intro hp
    exact List.mem_flatMap.mpr ⟨p.1, List.mem_range.mpr hp.1,
      List.mem_map.mpr ⟨p.2, List.mem_range.mpr hp.2, by cases p; rfl⟩⟩

/-- A successful re-roll loop writes a rock at its cell, changes no
other cell, and leaves a cell that completes no run. -/
theorem placeAt_spec (rolls : Nat → Nat) :
    ∀ (fuel : Nat) (b : BoardC) (idx r c : Nat) (b' : BoardC) (idx' : Nat),
      placeAt rolls fuel b idx r c = some (b', idx') →
      (∀ q1 q2, ¬(q1 = r ∧ q2 = c) → b' q1 q2 = b q1 q2) ∧
      (b' r c).kind = CellKind.Rock ∧
      wouldCreateMatch b' r c = false := by
  intro fuel
  induction fuel with
  | zero => intro b idx r c b' idx' h; simp [placeAt] at h
  | succ fuel ih =>
    intro b idx r c b' idx' h
    simp only [placeAt] at h
    by_cases hm : wouldCreateMatch (updateC b r c (makeRandomRock (rolls idx))) r c
      = true
    · rw [if_pos hm] at h
      obtain ⟨h1, h2, h3⟩ := ih _ _ _ _ _ _ h
      refine ⟨?_, h2, h3⟩
      intro q1 q2 hq
      rw [h1 q1 q2 hq]
      simp [updateC, hq]
    · rw [if_neg hm] at h
      obtain ⟨rfl, rfl⟩ :
          updateC b r c (makeRandomRock (rolls idx)) = b' ∧ idx + 1 = idx' := by
        simpa using h
      refine ⟨?_, ?_, ?_⟩
      · intro q1 q2 hq
        simp [updateC, hq]
      · simp [updateC, makeRandomRock]
      · simpa using hm

/-- Filling a list of cells leaves every cell outside the list
untouched. -/
theorem fillFrom_frame (rolls : Nat → Nat) (fuel : Nat) :
    ∀ (ps : List (Nat × Nat)) (b : BoardC) (idx : Nat) (b' : BoardC) (idx' : Nat),
      fillFrom rolls fuel ps b idx = some (b', idx') →
      ∀ q1 q2, (∀ p ∈ ps, ¬(q1 = p.1 ∧ q2 = p.2)) → b' q1 q2 = b q1 q2 := by
  intro ps
  induction ps with
  | nil =>
    intro b idx b' idx' h q1 q2 _
    obtain ⟨rfl, rfl⟩ : b = b' ∧ idx = idx' := by simpa [fillFrom] using h
    rfl
  | cons p ps ih =>
    intro b idx b' idx' h q1 q2 hq
    simp only [fillFrom] at h
    cases hplace : placeAt rolls fuel b idx p.1 p.2 with
    | none => rw [hplace] at h; simp at h
    | some bi =>
      rw [hplace] at h
      have hmain := ih bi.1 bi.2 b' idx' h q1 q2
        fun q hqm => hq q (List.mem_cons_of_mem p hqm)
      rw [hmain]
      exact (placeAt_spec rolls fuel b idx p.1 p.2 bi.1 bi.2 hplace).1 q1 q2
        (hq p (List.mem_cons_self p ps))

/-- `wouldCreateMatch` reads only the cell and its two left / two upper
neighbors. -/
theorem wouldCreateMatch_congr (b b' : BoardC) (r c : Nat)
    (h0 : b' r c = b r c)
    (hl1 : b' r (c - 1) = b r (c - 1)) (hl2 : b' r (c - 2) = b r (c - 2))
    (hu1 : b' (r - 1) c = b (r - 1) c) (hu2 : b' (r - 2) c = b (r - 2) c) :
    wouldCreateMatch b' r c = wouldCreateMatch b r c := by
  unfold wouldCreateMatch
  rw [h0, hl1, hl2, hu1, hu2]

/-- The placement invariant: after a successful fill over a key-sorted
cell list, every listed cell holds a rock and completes no run — the
later placements never touch the cells `wouldCreateMatch` read. -/
theorem fillFrom_inv (rolls : Nat → Nat) (fuel : Nat) :
    ∀ (ps : List (Nat × Nat)) (b : BoardC) (idx : Nat) (b' : BoardC) (idx' : Nat),
      List.Pairwise (fun p q => posKey p < posKey q) ps →
      fillFrom rolls fuel ps b idx = some (b', idx') →
      ∀ p ∈ ps, (b' p.1 p.2).kind = CellKind.Rock ∧
        wouldCreateMatch b' p.1 p.2 = false := by
  intro ps
  induction ps with
  | nil => intro b idx b' idx' _ h p hp; simp at hp
  | cons p0 ps ih =>
    intro b idx b' idx' hsort h p hp
    simp only [fillFrom] at h
    cases hplace : placeAt rolls fuel b idx p0.1 p0.2 with
    | none => rw [hplace] at h; simp at h
    | some bi =>
      rw [hplace] at h
      rcases List.mem_cons.mp hp with rfl | hp'
      · obtain ⟨_, hrock, hnomatch⟩ :=
          placeAt_spec rolls fuel b idx p.1 p.2 bi.1 bi.2 hplace
        have hlater : ∀ q ∈ ps, posKey p < posKey q :=
          (List.pairwise_cons.mp hsort).1
        have hagree : ∀ q1 q2, 8 * q1 + q2 ≤ posKey p → b' q1 q2 = bi.1 q1 q2 := by
          intro q1 q2 hkey
          refine fillFrom_frame rolls fuel ps bi.1 bi.2 b' idx' h q1 q2 ?_
          intro q hq hcontra
          obtain ⟨rfl, rfl⟩ := hcontra
          have := hlater q hq
          unfold posKey at this hkey
          omega
        have hp1 : posKey p = 8 * p.1 + p.2 := rfl
        refine ⟨?_, ?_⟩
        · rw [hagree p.1 p.2 (by omega)]
          exact hrock
        · rw [wouldCreateMatch_congr bi.1 b' p.1 p.2
            (hagree p.1 p.2 (by omega))
            (hagree p.1 (p.2 - 1) (by omega))
            (hagree p.1 (p.2 - 2) (by omega))
            (hagree (p.1 - 1) p.2 (by omega))
            (hagree (p.1 - 2) p.2 (by omega))]
          exact hnomatch
      · exact ih bi.1 bi.2 b' idx' (List.pairwise_cons.mp hsort).2 h p hp'

/-- **C8.**  Every board produced by `createInitialBoard` — under any
roll stream for which the creation loop terminates — has no three
consecutive equal-colored cells in any row or column.  (All cells are
rocks and satisfy `¬wouldCreateMatch` at their own coordinates, which
forbids both orientations.) -/
theorem createInitialBoard_no_three (rolls : Nat → Nat) (fuel : Nat) (b : BoardC)
    (h : createInitialBoard rolls fuel = some b) :
    (∀ r c : Nat, r < 8 → c + 2 < 8 →
      ¬((b r c).color = (b r (c + 1)).color ∧
        (b r (c + 1)).color = (b r (c + 2)).color)) ∧
    (∀ r c : Nat, r + 2 < 8 → c < 8 →
      ¬((b r c).color = (b (r + 1) c).color ∧
        (b (r + 1) c).color = (b (r + 2) c).color)) := by
  unfold createInitialBoard at h
  cases hfill : fillFrom rolls fuel gridPos8 emptyBoardC 0 with
  | none => rw [hfill] at h; simp at h
  | some bi =>
    rw [hfill] at h
    obtain rfl : bi.1 = b := by simpa using h
    have hinv := fillFrom_inv rolls fuel gridPos8 emptyBoardC 0 bi.1 bi.2
      gridPos8_sorted hfill
    have hIsRock : ∀ p : Nat × Nat, p.1 < 8 → p.2 < 8 → isRock (bi.1 p.1 p.2) = true := by
      intro p h1 h2
      have := (hinv p (mem_gridPos8.mpr ⟨h1, h2⟩)).1
      simp [isRock, this]
    constructor
    · intro r c hr hc habs
      have hmatch := (hinv (r, c + 2) (mem_gridPos8.mpr ⟨hr, hc⟩)).2
      have h0 := hIsRock (r, c) hr (by omega)
      have h1 := hIsRock (r, c + 1) hr (by omega)
      have h2 := hIsRock (r, c + 2) hr hc
      have htrue : wouldCreateMatch bi.1 r (c + 2) = true := by
        unfold wouldCreateMatch
        have e1 : (bi.1 r (c + 1)).color = (bi.1 r (c + 2)).color := habs.2
        have e2 : (bi.1 r c).color = (bi.1 r (c + 2)).color := habs.1.trans habs.2
        simp only [h2, Bool.not_true, if_false]
        simp [h0, h1, e1, e2, show 2 ≤ c + 2 from by omega]
      rw [htrue] at hmatch
      cases hmatch
    · intro r c hr hc habs
      have hmatch := (hinv (r + 2, c) (mem_gridPos8.mpr ⟨hr, hc⟩)).2
      have h0 := hIsRock (r, c) (by omega) hc
      have h1 := hIsRock (r + 1, c) (by omega) hc
      have h2 := hIsRock (r + 2, c) hr hc
      have htrue : wouldCreateMatch bi.1 (r + 2) c = true := by
        unfold wouldCreateMatch
        have e1 : (bi.1 (r + 1) c).color = (bi.1 (r + 2) c).color := habs.2
        have e2 : (bi.1 r c).color = (bi.1 (r + 2) c).color := habs.1.trans habs.2
        simp only [h2, Bool.not_true, if_false]
        simp [h0, h1, e1, e2, show 2 ≤ r + 2 from by omega]
      rw [htrue] at hmatch
      cases hmatch

/-- **C8 witness.**  The checkerboard roll stream succeeds with one
attempt per cell, and the produced board has no three-in-a-row. -/
theorem createInitialBoard_no_three_witness :
    createInitialBoard checkerRolls 1 = some demoInitialBoard ∧
    ¬((demoInitialBoard 3 2).color = (demoInitialBoard 3 3).color ∧
      (demoInitialBoard 3 3).color = (demoInitialBoard 3 4).color) :=
  ⟨rfl,
   (createInitialBoard_no_three checkerRolls 1 demoInitialBoard rfl).1 3 2
     (by decide) (by decide)⟩

/-- **C9.**  The cascade loop of `resolveBoard` always terminates: it
performs at most the configured ceiling of 80 passes, and whenever it
stops short of the ceiling it is because the scan found no qualifying
run on the final board; reaching the ceiling simply ends the loop.
(The loop body's `collapse`/`refill` are modelled from the spec, their
source files being absent; the bound holds for every board, preferred
cell and refill randomness.) -/
theorem resolveBoard_terminates (rollsAt : Nat → Int → Int → Nat) (b : BoardI)
    (pref : Option (Int × Int)) :
    (resolveBoard rollsAt b pref).passes ≤ maxPasses ∧
    ((resolveBoard rollsAt b pref).passes < maxPasses →
      findMatches2 (resolveBoard rollsAt b pref).board = []) :=
  resolveGo_bounded rollsAt maxPasses b 0 1 pref

/-- **C9 witness.**  On the stable 2×2 board the loop stops after 0
passes, below the ceiling, and the final board has no match. -/
theorem resolveBoard_terminates_witness :
    (resolveBoard (fun _ _ _ => 0) stableBoard none).passes ≤ maxPasses ∧
    findMatches2 (resolveBoard (fun _ _ _ => 0) stableBoard none).board = [] :=
  ⟨(resolveBoard_terminates (fun _ _ _ => 0) stableBoard none).1,
   (resolveBoard_terminates (fun _ _ _ => 0) stableBoard none).2 (by decide)⟩

/-- **C6.**  `trySwap` is atomic and its legality conditions are
exactly: both positions in bounds, orthogonally adjacent, both cells
non-empty, and the tentative exchange creates at least one qualifying
run somewhere.  On rejection the returned board is the pre-call board;
on success it is exactly the pre-call board with the contents of the
two positions exchanged. -/
theorem trySwap_atomic_exchange (b : BoardI) (r1 c1 r2 c2 : Int) :
    ((trySwap b r1 c1 r2 c2).1 = true ↔
      inBoundsB b r1 c1 = true ∧ inBoundsB b r2 c2 = true ∧
      isAdjacentRC r1 c1 r2 c2 = true ∧
      isEmptyCell (b.cell r1 c1) = false ∧ isEmptyCell (b.cell r2 c2) = false ∧
      findMatches2 (swapCells b r1 c1 r2 c2) ≠ []) ∧
    ((trySwap b r1 c1 r2 c2).1 = false → (trySwap b r1 c1 r2 c2).2 = b) ∧
    ((trySwap b r1 c1 r2 c2).1 = true →
      (trySwap b r1 c1 r2 c2).2 = swapCells b r1 c1 r2 c2) ∧
    (∀ r c, (swapCells b r1 c1 r2 c2).cell r c =
      if r = r2 ∧ c = c2 then b.cell r1 c1
      else if r = r1 ∧ c = c1 then b.cell r2 c2
      else b.cell r c) := by
  refine ⟨?_, ?_, ?_, fun r c => rfl⟩ <;>
    · simp only [trySwap]
      split_ifs with h1 h2 h3 h4 <;> simp_all [List.length_pos] <;>
        (intro hx hy; rcases h3 with h | h <;> simp_all)

/-- JS-style line indexing: `line[j]`, out of range read as empty. -/
theorem lineAt_nil (j : Nat) : lineAt [] j = -1 := by
  cases j <;> rfl

theorem lineAt_cons_zero (v : Int) (l : List Int) : lineAt (v :: l) 0 = v := rfl

theorem lineAt_cons_succ (v : Int) (l : List Int) (j : Nat) :
    lineAt (v :: l) (j + 1) = lineAt l j := rfl

theorem lineAt_drop : ∀ (k : Nat) (l : List Int) (j : Nat),
    lineAt (l.drop k) j = lineAt l (k + j) := by
  intro k
  induction k with
  | zero => intro l j; rw [List.drop_zero, Nat.zero_add]
  | succ k ih =>
    intro l j
    cases l with
    | nil => rw [List.drop_nil, lineAt_nil, lineAt_nil]
    | cons v rest =>
      rw [List.drop_succ_cons, ih rest j,
        show k + 1 + j = (k + j) + 1 from by omega, lineAt_cons_succ]

/-- Reading off a row line is reading the board cell. -/
theorem lineAt_rowLine (b : BoardI) (r : Int) (j : Nat) (h : j < b.cols) :
    lineAt (rowLine b r) j = b.cell r (Int.ofNat j) := by
  unfold lineAt rowLine
  rw [List.getD_eq_getElem?_getD, List.getElem?_map, List.getElem?_range h]
  rfl

/-- Reading off a column line is reading the board cell. -/
theorem lineAt_colLine (b : BoardI) (c : Int) (j : Nat) (h : j < b.rows) :
    lineAt (colLine b c) j = b.cell (Int.ofNat j) c := by
  unfold lineAt colLine
  rw [List.getD_eq_getElem?_getD, List.getElem?_map, List.getElem?_range h]
  rfl

/-- What a successful `matchesColor` test guarantees. -/
theorem matchesColor_true {v color : Int} (h : matchesColor v color = true) :
    0 ≤ v ∧ (isHypercube v = true ∨ baseColor v = color) := by
  unfold matchesColor at h
  split_ifs at h with h1
  rcases Bool.or_eq_true _ _ ▸ h with h2 | h2
  · exact ⟨by omega, Or.inl h2⟩
  · exact ⟨by omega, Or.inr (eq_of_beq h2)⟩

/-- Every cell before the `countMatching` cut continues the run. -/
theorem countMatching_lt (color : Int) :
    ∀ (l : List Int) (j : Nat), j < countMatching color l →
      matchesColor (lineAt l j) color = true := by
  intro l
  induction l with
  | nil => intro j hj; simp [countMatching] at hj
  | cons v rest ih =>
    intro j hj
    by_cases hv : matchesColor v color = true
    · cases j with
      | zero => exact lineAt_cons_zero v rest ▸ hv
      | succ j =>
        rw [lineAt_cons_succ]
        refine ih j ?_
        unfold countMatching at hj
        rw [if_pos hv] at hj
        omega
    · unfold countMatching at hj
      rw [if_neg hv] at hj
      omega

/-- What a successful `goodForColor` test guarantees. -/
theorem goodForColor_true {color v : Int} (h : goodForColor color v = true) :
    0 ≤ v ∧ (isHypercube v = true ∨ baseColor v = color) := by
  unfold goodForColor at h
  rcases Bool.and_eq_true _ _ ▸ h with ⟨h1, h2⟩
  rcases Bool.or_eq_true _ _ ▸ h2 with h3 | h3
  · exact ⟨by exact_mod_cast of_decide_eq_true h1, Or.inl h3⟩
  · exact ⟨by exact_mod_cast of_decide_eq_true h1, Or.inr (eq_of_beq h3)⟩

/-- Every cell before the `countGood` cut is wild-or-color. -/
theorem countGood_lt (color : Int) :
    ∀ (l : List Int) (j : Nat), j < countGood color l →
      goodForColor color (lineAt l j) = true := by
  intro l
  induction l with
  | nil => intro j hj; simp [countGood] at hj
  | cons v rest ih =>
    intro j hj
    by_cases hv : goodForColor color v = true
    · cases j with
      | zero => exact lineAt_cons_zero v rest ▸ hv
      | succ j =>
        rw [lineAt_cons_succ]
        refine ih j ?_
        unfold countGood at hj
        rw [if_pos hv] at hj
        omega
    · unfold countGood at hj
      rw [if_neg hv] at hj
      omega

/-- Every cell before the `countNonNeg` cut is non-empty. -/
theorem countNonNeg_lt :
    ∀ (l : List Int) (j : Nat), j < countNonNeg l → 0 ≤ lineAt l j := by
  intro l
  induction l with
  | nil => intro j hj; simp [countNonNeg] at hj
  | cons v rest ih =>
    intro j hj
    by_cases hv : (0 : Int) ≤ v
    · cases j with
      | zero => exact lineAt_cons_zero v rest ▸ hv
      | succ j =>
        rw [lineAt_cons_succ]
        refine ih j ?_
        unfold countNonNeg at hj
        rw [if_pos hv] at hj
        omega
    · unfold countNonNeg at hj
      rw [if_neg hv] at hj
      omega

/-- Index transport for skipping one cell. -/
theorem lineAt_skip1 (v : Int) (rest : List Int) (i s1 j : Nat)
    (h : i + 1 ≤ s1) :
    lineAt rest (s1 - (i + 1) + j) = lineAt (v :: rest) (s1 - i + j) := by
  rw [show s1 - i + j = (s1 - (i + 1) + j) + 1 from by omega, lineAt_cons_succ]

/-- Index transport for skipping a head cell plus `k` more. -/
theorem lineAt_skip (v : Int) (rest : List Int) (k i s1 j : Nat)
    (h : i + (k + 1) ≤ s1) :
    lineAt (rest.drop k) (s1 - (i + (k + 1)) + j) =
      lineAt (v :: rest) (s1 - i + j) := by
  rw [lineAt_drop,
    show s1 - i + j = k + (s1 - (i + (k + 1)) + j) + 1 from by omega,
    lineAt_cons_succ]

/-- The color found by the lookahead occurs at a non-wildcard cell
inside the matching prefix. -/
theorem pickRunColorTail_spec :
    ∀ (l : List Int) (x : Int), pickRunColorTail l = x → 0 ≤ x →
      ∃ t : Nat, t < countMatching x l ∧ isHypercube (lineAt l t) = false ∧
        baseColor (lineAt l t) = x := by
  intro l
  induction l with
  | nil =>
    intro x hx hge
    simp only [pickRunColorTail] at hx
    omega
  | cons w rest ih =>
    intro x hx hge
    simp only [pickRunColorTail] at hx
    split_ifs at hx with h1 h2
    · omega
    · obtain ⟨t, ht1, ht2, ht3⟩ := ih x hx hge
      have hm : matchesColor w x = true := by
        unfold matchesColor
        rw [if_neg h1, h2]
        rfl
      refine ⟨t + 1, ?_, ?_, ?_⟩
      · unfold countMatching
        rw [if_pos hm]
        omega
      · rw [lineAt_cons_succ]; exact ht2
      · rw [lineAt_cons_succ]; exact ht3
    · have hm : matchesColor w x = true := by
        unfold matchesColor
        rw [if_neg h1]
        simp [hx]
      refine ⟨0, ?_, ?_, ?_⟩
      · unfold countMatching
        rw [if_pos hm]
        omega
      · rw [lineAt_cons_zero]; simpa using h2
      · rw [lineAt_cons_zero]; exact hx

/-- Structural facts about every segment the gem-era scanner emits:
it starts at or after the scan index, has length ≥ 3, covers only
non-empty cells, contains at least one non-Wildcard, and all its
non-Wildcards share one (non-negative) adopted color. -/
theorem scanSegsF_spec :
    ∀ (fuel : Nat) (l : List Int) (i : Nat) (s : Nat × Nat),
      s ∈ scanSegsF fuel l i →
      i ≤ s.1 ∧ 3 ≤ s.2 ∧
      (∀ j, j < s.2 → 0 ≤ lineAt l (s.1 - i + j)) ∧
      (∃ j, j < s.2 ∧ isHypercube (lineAt l (s.1 - i + j)) = false) ∧
      (∃ color, 0 ≤ color ∧ ∀ j, j < s.2 →
        isHypercube (lineAt l (s.1 - i + j)) = false →
        baseColor (lineAt l (s.1 - i + j)) = color) := by
  intro fuel
  induction fuel with
  | zero =>
    intro l i s hs
    simp [scanSegsF] at hs
  | succ fuel ih =>
    intro l i s hs
    cases l with
    | nil => simp [scanSegsF] at hs
    | cons v rest =>
      simp only [scanSegsF] at hs
      have skipCase : s ∈ scanSegsF fuel rest (i + 1) →
          i ≤ s.1 ∧ 3 ≤ s.2 ∧
          (∀ j, j < s.2 → 0 ≤ lineAt (v :: rest) (s.1 - i + j)) ∧
          (∃ j, j < s.2 ∧ isHypercube (lineAt (v :: rest) (s.1 - i + j)) = false) ∧
          (∃ color, 0 ≤ color ∧ ∀ j, j < s.2 →
            isHypercube (lineAt (v :: rest) (s.1 - i + j)) = false →
            baseColor (lineAt (v :: rest) (s.1 - i + j)) = color) := by
        intro hs'
        obtain ⟨h1, h2, h3, h4, h5⟩ := ih rest (i + 1) s hs'
        refine ⟨by omega, h2, ?_, ?_, ?_⟩
        · intro j hj
          rw [← lineAt_skip1 v rest i s.1 j h1]
          exact h3 j hj
        · obtain ⟨j, hj, hh⟩ := h4
          exact ⟨j, hj, by rw [← lineAt_skip1 v rest i s.1 j h1]; exact hh⟩
        · obtain ⟨color, hc0, hc⟩ := h5
          refine ⟨color, hc0, fun j hj hnh => ?_⟩
          rw [← lineAt_skip1 v rest i s.1 j h1] at hnh ⊢
          exact hc j hj hnh
      by_cases hv : v < 0
      · rw [if_pos hv] at hs
        exact skipCase hs
      · rw [if_neg hv] at hs
        by_cases hcol : pickRunColor (v :: rest) < 0
        · rw [if_pos hcol] at hs
          exact skipCase hs
        · rw [if_neg hcol] at hs
          have tailCase : s ∈ scanSegsF fuel
              (rest.drop (countMatching (pickRunColor (v :: rest)) rest))
              (i + (countMatching (pickRunColor (v :: rest)) rest + 1)) →
              i ≤ s.1 ∧ 3 ≤ s.2 ∧
              (∀ j, j < s.2 → 0 ≤ lineAt (v :: rest) (s.1 - i + j)) ∧
              (∃ j, j < s.2 ∧
                isHypercube (lineAt (v :: rest) (s.1 - i + j)) = false) ∧
              (∃ color, 0 ≤ color ∧ ∀ j, j < s.2 →
                isHypercube (lineAt (v :: rest) (s.1 - i + j)) = false →
                baseColor (lineAt (v :: rest) (s.1 - i + j)) = color) := by
            intro hs'
            obtain ⟨h1, h2, h3, h4, h5⟩ := ih _ _ s hs'
            refine ⟨by omega, h2, ?_, ?_, ?_⟩
            · intro j hj
              rw [← lineAt_skip v rest _ i s.1 j h1]
              exact h3 j hj
            · obtain ⟨j, hj, hh⟩ := h4
              exact ⟨j, hj, by rw [← lineAt_skip v rest _ i s.1 j h1]; exact hh⟩
            · obtain ⟨color, hc0, hc⟩ := h5
              refine ⟨color, hc0, fun j hj hnh => ?_⟩
              rw [← lineAt_skip v rest _ i s.1 j h1] at hnh ⊢
              exact hc j hj hnh
          have headCase : s = (i, countMatching (pickRunColor (v :: rest)) rest + 1) →
              3 ≤ countMatching (pickRunColor (v :: rest)) rest + 1 →
              i ≤ s.1 ∧ 3 ≤ s.2 ∧
              (∀ j, j < s.2 → 0 ≤ lineAt (v :: rest) (s.1 - i + j)) ∧
              (∃ j, j < s.2 ∧
                isHypercube (lineAt (v :: rest) (s.1 - i + j)) = false) ∧
              (∃ color, 0 ≤ color ∧ ∀ j, j < s.2 →
                isHypercube (lineAt (v :: rest) (s.1 - i + j)) = false →
                baseColor (lineAt (v :: rest) (s.1 - i + j)) = color) := by
            intro hseq hlen
            have hs1 : s.1 = i := by rw [hseq]
            have hs2 : s.2 = countMatching (pickRunColor (v :: rest)) rest + 1 := by
              rw [hseq]
            simp only [hs1, hs2, Nat.sub_self, Nat.zero_add]
            refine ⟨Nat.le_refl i, hlen, ?_, ?_, ?_⟩
            · intro j hj
              cases j with
              | zero => rw [lineAt_cons_zero]; omega
              | succ j =>
                rw [lineAt_cons_succ]
                exact (matchesColor_true
                  (countMatching_lt (pickRunColor (v :: rest)) rest j (by omega))).1
            · by_cases hhv : isHypercube v = true
              · have hcolor : pickRunColorTail rest = pickRunColor (v :: rest) := by
                  simp only [pickRunColor, hhv, if_true]
                obtain ⟨t, ht1, ht2, ht3⟩ :=
                  pickRunColorTail_spec rest (pickRunColor (v :: rest)) hcolor
                    (by omega)
                exact ⟨t + 1, by omega, by rw [lineAt_cons_succ]; exact ht2⟩
              · exact ⟨0, by omega, by rw [lineAt_cons_zero]; simpa using hhv⟩
            · refine ⟨pickRunColor (v :: rest), by omega, ?_⟩
              intro j hj hnh
              cases j with
              | zero =>
                rw [lineAt_cons_zero] at hnh ⊢
                simp [pickRunColor, hnh]
              | succ j =>
                rw [lineAt_cons_succ] at hnh ⊢
                rcases (matchesColor_true
                  (countMatching_lt (pickRunColor (v :: rest)) rest j
                    (by omega))).2 with hcase | hcase
                · exact absurd hcase (by simp [hnh])
                · exact hcase
          by_cases hlen : 3 ≤ countMatching (pickRunColor (v :: rest)) rest + 1
          · rw [if_pos hlen] at hs
            rcases List.mem_cons.mp hs with hseq | htail
            · exact headCase hseq hlen
            · exact tailCase htail
          · rw [if_neg hlen] at hs
            exact tailCase hs

/-- On a line whose non-empty cells are all Wildcards the lookahead
finds no color. -/
theorem pickRunColorTail_allHyper :
    ∀ l : List Int, (∀ w ∈ l, 0 ≤ w → isHypercube w = true) →
      pickRunColorTail l = -1 := by
  intro l
  induction l with
  | nil => intro _; rfl
  | cons w rest ih =>
    intro h
    simp only [pickRunColorTail]
    by_cases h1 : w < 0
    · rw [if_pos h1]
    · rw [if_neg h1, if_pos (h w (List.mem_cons_self w rest) (by omega))]
      exact ih fun x hx => h x (List.mem_cons_of_mem w hx)

/-- The gem-era scanner emits nothing on a line whose non-empty cells
are all Wildcards. -/
theorem scanSegsF_allHyper :
    ∀ (fuel : Nat) (l : List Int),
      (∀ w ∈ l, 0 ≤ w → isHypercube w = true) →
      ∀ i, scanSegsF fuel l i = [] := by
  intro fuel
  induction fuel with
  | zero => intro l _ i; rfl
  | succ fuel ih =>
    intro l h i
    cases l with
    | nil => rfl
    | cons v rest =>
      simp only [scanSegsF]
      have hrest : ∀ w ∈ rest, 0 ≤ w → isHypercube w = true :=
        fun w hw => h w (List.mem_cons_of_mem v hw)
      by_cases hv : v < 0
      · rw [if_pos hv]
        exact ih rest hrest (i + 1)
      · have hhv : isHypercube v = true := h v (List.mem_cons_self v rest) (by omega)
        have hcol : pickRunColor (v :: rest) = -1 := by
          simp only [pickRunColor, hhv, if_true]
          exact pickRunColorTail_allHyper rest hrest
        rw [if_neg hv, if_pos (show pickRunColor (v :: rest) < 0 by rw [hcol]; omega)]
        exact ih rest hrest (i + 1)

/-- A stored base color is never negative (`v % 256` with JS-style
euclidean remainder). -/
theorem baseColor_nonneg (v : Int) : 0 ≤ baseColor v :=
  Int.emod_nonneg v (by norm_num)

/-- Branch equation: the lookahead on an Empty head. -/
theorem pickRunColorTail_cons_neg (v : Int) (rest : List Int) (hv : v < 0) :
    pickRunColorTail (v :: rest) = -1 := by
  simp only [pickRunColorTail]
  rw [if_pos hv]

/-- Branch equation: the lookahead skips a Wildcard head. -/
theorem pickRunColorTail_cons_hyper (v : Int) (rest : List Int)
    (hv : ¬ v < 0) (hh : isHypercube v = true) :
    pickRunColorTail (v :: rest) = pickRunColorTail rest := by
  simp only [pickRunColorTail]
  rw [if_neg hv, if_pos hh]

/-- Branch equation: the lookahead stops at a real head. -/
theorem pickRunColorTail_cons_real (v : Int) (rest : List Int)
    (hv : ¬ v < 0) (hh : ¬ isHypercube v = true) :
    pickRunColorTail (v :: rest) = baseColor v := by
  simp only [pickRunColorTail]
  rw [if_neg hv, if_neg hh]

/-- Branch equation: lookahead from a Wildcard head. -/
theorem pickRunColor_cons_hyper (v : Int) (rest : List Int)
    (hh : isHypercube v = true) :
    pickRunColor (v :: rest) = pickRunColorTail rest := by
  simp only [pickRunColor]
  rw [if_pos hh]

/-- Branch equation: lookahead from a real head. -/
theorem pickRunColor_cons_real (v : Int) (rest : List Int)
    (hh : ¬ isHypercube v = true) :
    pickRunColor (v :: rest) = baseColor v := by
  simp only [pickRunColor]
  rw [if_neg hh]

/-- Branch equation: an Empty cell continues no run. -/
theorem matchesColor_neg (v color : Int) (hv : v < 0) :
    matchesColor v color = false := by
  unfold matchesColor
  rw [if_pos hv]

/-- Branch equation: a Wildcard continues every run. -/
theorem matchesColor_hyper (v color : Int) (hv : ¬ v < 0)
    (hh : isHypercube v = true) : matchesColor v color = true := by
  unfold matchesColor
  rw [if_neg hv, hh]
  rfl

/-- Branch equation: a real tile continues a run iff the colors agree. -/
theorem matchesColor_real (v color : Int) (hv : ¬ v < 0)
    (hh : isHypercube v = false) :
    matchesColor v color = (baseColor v == color) := by
  unfold matchesColor
  rw [if_neg hv, hh]
  rfl

/-- Once the adopted color is fixed, the walk's continuation count is
exactly the scanner's `countMatching`. -/
theorem specExtend_some_eq :
    ∀ (l : List Int) (color : Int),
      specExtend l (some color) = countMatching color l := by
  intro l
  induction l with
  | nil => intro color; rfl
  | cons v rest ih =>
    intro color
    by_cases hv : v < 0
    · have hm : ¬ matchesColor v color = true := by
        rw [matchesColor_neg v color hv]
        exact Bool.false_ne_true
      have e1 : specExtend (v :: rest) (some color) = 0 := by
        simp only [specExtend]
        rw [if_pos hv]
      have e2 : countMatching color (v :: rest) = 0 := by
        simp only [countMatching]
        rw [if_neg hm]
      rw [e1, e2]
    · by_cases hhv : isHypercube v = true
      · have hm : matchesColor v color = true := matchesColor_hyper v color hv hhv
        have e1 : specExtend (v :: rest) (some color) =
            1 + specExtend rest (some color) := by
          simp only [specExtend]
          rw [if_neg hv, if_pos hhv]
        have e2 : countMatching color (v :: rest) = countMatching color rest + 1 := by
          simp only [countMatching]
          rw [if_pos hm]
        rw [e1, e2, ih]
        omega
      · by_cases hbc : baseColor v = color
        · have hm : matchesColor v color = true := by
            rw [matchesColor_real v color hv (by simpa using hhv)]
            simp [hbc]
          have e1 : specExtend (v :: rest) (some color) =
              1 + specExtend rest (some color) := by
            simp only [specExtend]
            rw [if_neg hv, if_neg hhv, if_pos hbc]
          have e2 : countMatching color (v :: rest) = countMatching color rest + 1 := by
            simp only [countMatching]
            rw [if_pos hm]
          rw [e1, e2, ih]
          omega
        · have hm : ¬ matchesColor v color = true := by
            rw [matchesColor_real v color hv (by simpa using hhv)]
            simp [hbc]
          have e1 : specExtend (v :: rest) (some color) = 0 := by
            simp only [specExtend]
            rw [if_neg hv, if_neg hhv, if_neg hbc]
          have e2 : countMatching color (v :: rest) = 0 := by
            simp only [countMatching]
            rw [if_neg hm]
          rw [e1, e2]

/-- When the lookahead finds a color, the walk's continuation count
from an undetermined color equals the scanner's count for that color. -/
theorem specExtend_none_of_pickTail :
    ∀ (l : List Int) (color : Int),
      pickRunColorTail l = color → 0 ≤ color →
      specExtend l none = countMatching color l := by
  intro l
  induction l with
  | nil =>
    intro color hc hge
    simp only [pickRunColorTail] at hc
    omega
  | cons v rest ih =>
    intro color hc hge
    by_cases h1 : v < 0
    · rw [pickRunColorTail_cons_neg v rest h1] at hc
      omega
    · by_cases h2 : isHypercube v = true
      · rw [pickRunColorTail_cons_hyper v rest h1 h2] at hc
        have hm : matchesColor v color = true := matchesColor_hyper v color h1 h2
        have e1 : specExtend (v :: rest) none = 1 + specExtend rest none := by
          simp only [specExtend]
          rw [if_neg h1, if_pos h2]
        have e2 : countMatching color (v :: rest) = countMatching color rest + 1 := by
          simp only [countMatching]
          rw [if_pos hm]
        rw [e1, e2, ih color hc hge]
        omega
      · rw [pickRunColorTail_cons_real v rest h1 h2] at hc
        have hm : matchesColor v color = true := by
          rw [matchesColor_real v color h1 (by simpa using h2)]
          simp [hc]
        have e1 : specExtend (v :: rest) none =
            1 + specExtend rest (some (baseColor v)) := by
          simp only [specExtend]
          rw [if_neg h1, if_neg h2]
        have e2 : countMatching color (v :: rest) = countMatching color rest + 1 := by
          simp only [countMatching]
          rw [if_pos hm]
        rw [e1, e2, specExtend_some_eq, hc]
        omega

/-- On a block head with a found color, the walk consumes exactly the
head plus the scanner's matching prefix. -/
theorem specExtend_colored_head (v : Int) (rest : List Int) (color : Int)
    (hv : ¬ v < 0) (hc : pickRunColor (v :: rest) = color) (hge : 0 ≤ color) :
    specExtend (v :: rest) none = countMatching color rest + 1 := by
  by_cases hhv : isHypercube v = true
  · have hct : pickRunColorTail rest = color := by
      rw [pickRunColor_cons_hyper v rest hhv] at hc
      exact hc
    have e1 : specExtend (v :: rest) none = 1 + specExtend rest none := by
      simp only [specExtend]
      rw [if_neg hv, if_pos hhv]
    rw [e1, specExtend_none_of_pickTail rest color hct hge]
    omega
  · have hbc : baseColor v = color := by
      rw [pickRunColor_cons_real v rest hhv] at hc
      exact hc
    have e1 : specExtend (v :: rest) none =
        1 + specExtend rest (some (baseColor v)) := by
      simp only [specExtend]
      rw [if_neg hv, if_neg hhv]
    rw [e1, specExtend_some_eq, hbc]
    omega

/-- When the lookahead finds no color, every cell the walk consumes
from an undetermined color is a non-empty Wildcard. -/
theorem specExtend_none_allWild :
    ∀ (l : List Int), pickRunColorTail l < 0 →
      ∀ j, j < specExtend l none →
        0 ≤ lineAt l j ∧ isHypercube (lineAt l j) = true := by
  intro l
  induction l with
  | nil =>
    intro _ j hj
    simp [specExtend] at hj
  | cons v rest ih =>
    intro hneg j hj
    by_cases hv : v < 0
    · have hn : specExtend (v :: rest) none = 0 := by
        simp only [specExtend]
        rw [if_pos hv]
      rw [hn] at hj
      omega
    · have hhv : isHypercube v = true := by
        by_contra hc
        rw [pickRunColorTail_cons_real v rest hv hc] at hneg
        have := baseColor_nonneg v
        omega
      have htail : pickRunColorTail rest < 0 := by
        rw [pickRunColorTail_cons_hyper v rest hv hhv] at hneg
        exact hneg
      have hn : specExtend (v :: rest) none = 1 + specExtend rest none := by
        simp only [specExtend]
        rw [if_neg hv, if_pos hhv]
      rw [hn] at hj
      cases j with
      | zero =>
        refine ⟨?_, ?_⟩
        · rw [lineAt_cons_zero]; omega
        · rw [lineAt_cons_zero]; exact hhv
      | succ j =>
        rw [lineAt_cons_succ]
        exact ih htail j (by omega)

/-- The scanner's result does not depend on the fuel, as long as the
fuel covers the line length. -/
theorem scanSegsF_fuel_irrel :
    ∀ (fuel fuel' : Nat) (l : List Int) (i : Nat),
      l.length ≤ fuel → l.length ≤ fuel' →
      scanSegsF fuel l i = scanSegsF fuel' l i := by
  intro fuel
  induction fuel with
  | zero =>
    intro fuel' l i h _
    have hl : l = [] := List.length_eq_zero.mp (Nat.le_zero.mp h)
    subst hl
    cases fuel' <;> rfl
  | succ fuel ih =>
    intro fuel' l i h h'
    cases l with
    | nil => cases fuel' <;> rfl
    | cons v rest =>
      cases fuel' with
      | zero => simp at h'
      | succ fuel2 =>
        have h1 : rest.length ≤ fuel := by
          simp only [List.length_cons] at h; omega
        have h1' : rest.length ≤ fuel2 := by
          simp only [List.length_cons] at h'; omega
        have hd : ∀ k : Nat, (rest.drop k).length ≤ fuel := by
          intro k; rw [List.length_drop]; omega
        have hd' : ∀ k : Nat, (rest.drop k).length ≤ fuel2 := by
          intro k; rw [List.length_drop]; omega
        simp only [scanSegsF]
        by_cases hv : v < 0
        · rw [if_pos hv, if_pos hv]
          exact ih fuel2 rest (i + 1) h1 h1'
        · rw [if_neg hv, if_neg hv]
          by_cases hcol : pickRunColor (v :: rest) < 0
          · rw [if_pos hcol, if_pos hcol]
            exact ih fuel2 rest (i + 1) h1 h1'
          · rw [if_neg hcol, if_neg hcol,
              ih fuel2 (rest.drop (countMatching (pickRunColor (v :: rest)) rest))
                (i + (countMatching (pickRunColor (v :: rest)) rest + 1)) (hd _) (hd' _)]

/-- Every block the walk emits starts at or after the walk index. -/
theorem specWalkBlocksF_start :
    ∀ (fuel : Nat) (l : List Int) (i : Nat) (s : Nat × Nat),
      s ∈ specWalkBlocksF fuel l i → i ≤ s.1 := by
  intro fuel
  induction fuel with
  | zero =>
    intro l i s hs
    simp [specWalkBlocksF] at hs
  | succ fuel ih =>
    intro l i s hs
    cases l with
    | nil => simp [specWalkBlocksF] at hs
    | cons v rest =>
      simp only [specWalkBlocksF] at hs
      by_cases hv : v < 0
      · rw [if_pos hv] at hs
        have := ih rest (i + 1) s hs
        omega
      · rw [if_neg hv] at hs
        rcases List.mem_cons.mp hs with hseq | htail
        · rw [hseq]
        · have := ih _ _ s htail
          omega

/-- Across a colorless stretch the scanner just advances: skipping the
whole walk block cell by cell changes nothing in its output. -/
theorem scanSegsF_skip_stretch :
    ∀ (fuel : Nat) (l : List Int) (i : Nat),
      pickRunColorTail l < 0 →
      scanSegsF fuel l i =
        scanSegsF (fuel - specExtend l none) (l.drop (specExtend l none))
          (i + specExtend l none) := by
  intro fuel
  induction fuel with
  | zero =>
    intro l i _
    rw [Nat.zero_sub]
    rfl
  | succ fuel ih =>
    intro l i hneg
    cases l with
    | nil => rfl
    | cons v rest =>
      by_cases hv : v < 0
      · have hn : specExtend (v :: rest) none = 0 := by
          simp only [specExtend]
          rw [if_pos hv]
        rw [hn]
        simp only [Nat.sub_zero, List.drop_zero, Nat.add_zero]
      · have hhv : isHypercube v = true := by
          by_contra hc
          rw [pickRunColorTail_cons_real v rest hv hc] at hneg
          have := baseColor_nonneg v
          omega
        have htail : pickRunColorTail rest < 0 := by
          rw [pickRunColorTail_cons_hyper v rest hv hhv] at hneg
          exact hneg
        have hn : specExtend (v :: rest) none = specExtend rest none + 1 := by
          have e1 : specExtend (v :: rest) none = 1 + specExtend rest none := by
            simp only [specExtend]
            rw [if_neg hv, if_pos hhv]
          rw [e1]
          omega
        have hcol : pickRunColor (v :: rest) < 0 := by
          rw [pickRunColor_cons_hyper v rest hhv]
          exact htail
        have hstep : scanSegsF (fuel + 1) (v :: rest) i = scanSegsF fuel rest (i + 1) := by
          simp only [scanSegsF]
          rw [if_neg hv, if_pos hcol]
        rw [hstep, ih rest (i + 1) htail, hn, List.drop_succ_cons,
          show fuel + 1 - (specExtend rest none + 1) = fuel - specExtend rest none
            from by omega,
          show i + (specExtend rest none + 1) = i + 1 + specExtend rest none
            from by omega]

/-- The gem-era scanner against the spec's walk: it emits exactly the
walk's blocks of length at least 3 that hold at least one non-Wildcard
tile. -/
theorem scanSegsF_eq_specWalk :
    ∀ (fuel : Nat) (l : List Int) (i : Nat), l.length ≤ fuel →
      ∀ s : Nat × Nat,
        (s ∈ scanSegsF fuel l i ↔
          s ∈ specWalkBlocksF fuel l i ∧ 3 ≤ s.2 ∧
          ∃ j, j < s.2 ∧ isHypercube (lineAt l (s.1 - i + j)) = false) := by
  intro fuel
  induction fuel with
  | zero =>
    intro l i hlen s
    have hl : l = [] := List.length_eq_zero.mp (Nat.le_zero.mp hlen)
    subst hl
    simp [scanSegsF, specWalkBlocksF]
  | succ fuel ih =>
    intro l i hlen s
    cases l with
    | nil => simp [scanSegsF, specWalkBlocksF]
    | cons v rest =>
      have hrlen : rest.length ≤ fuel := by
        simp only [List.length_cons] at hlen; omega
      by_cases hv : v < 0
      · have hscan : scanSegsF (fuel + 1) (v :: rest) i = scanSegsF fuel rest (i + 1) := by
          simp only [scanSegsF]
          rw [if_pos hv]
        have hwalk : specWalkBlocksF (fuel + 1) (v :: rest) i =
            specWalkBlocksF fuel rest (i + 1) := by
          simp only [specWalkBlocksF]
          rw [if_pos hv]
        rw [hscan, hwalk]
        constructor
        · intro hmem
          obtain ⟨hm, h3, j, hj, hh⟩ := (ih rest (i + 1) hrlen s).mp hmem
          have hstart : i + 1 ≤ s.1 := specWalkBlocksF_start fuel rest (i + 1) s hm
          refine ⟨hm, h3, j, hj, ?_⟩
          rw [← lineAt_skip1 v rest i s.1 j hstart]
          exact hh
        · rintro ⟨hm, h3, j, hj, hh⟩
          have hstart : i + 1 ≤ s.1 := specWalkBlocksF_start fuel rest (i + 1) s hm
          refine (ih rest (i + 1) hrlen s).mpr ⟨hm, h3, j, hj, ?_⟩
          rw [lineAt_skip1 v rest i s.1 j hstart]
          exact hh
      · by_cases hcol : pickRunColor (v :: rest) < 0
        · -- colorless stretch: the walk emits one never-qualifying
          -- all-Wildcard block, the scanner steps across it cell by cell
          have hhv : isHypercube v = true := by
            by_contra hc
            rw [pickRunColor_cons_real v rest hc] at hcol
            have := baseColor_nonneg v
            omega
          have htail : pickRunColorTail rest < 0 := by
            rw [pickRunColor_cons_hyper v rest hhv] at hcol
            exact hcol
          have hneg : pickRunColorTail (v :: rest) < 0 := by
            rw [pickRunColorTail_cons_hyper v rest hv hhv]
            exact htail
          have hn : specExtend (v :: rest) none = specExtend rest none + 1 := by
            have e1 : specExtend (v :: rest) none = 1 + specExtend rest none := by
              simp only [specExtend]
              rw [if_neg hv, if_pos hhv]
            rw [e1]
            omega
          have hdlen : (rest.drop (specExtend rest none)).length ≤ fuel := by
            rw [List.length_drop]; omega
          have hscan : scanSegsF (fuel + 1) (v :: rest) i =
              scanSegsF fuel (rest.drop (specExtend rest none))
                (i + 1 + specExtend rest none) := by
            have h1 : scanSegsF (fuel + 1) (v :: rest) i = scanSegsF fuel rest (i + 1) := by
              simp only [scanSegsF]
              rw [if_neg hv, if_pos hcol]
            rw [h1, scanSegsF_skip_stretch fuel rest (i + 1) htail]
            exact scanSegsF_fuel_irrel _ _ _ _ (by rw [List.length_drop]; omega) hdlen
          have hwalk : specWalkBlocksF (fuel + 1) (v :: rest) i =
              (i, specExtend rest none + 1) ::
                specWalkBlocksF fuel (rest.drop (specExtend rest none))
                  (i + 1 + specExtend rest none) := by
            simp only [specWalkBlocksF]
            rw [if_neg hv, hn, List.drop_succ_cons,
              show i + (specExtend rest none + 1) = i + 1 + specExtend rest none
                from by omega]
          have hallwild := specExtend_none_allWild (v :: rest) hneg
          rw [hscan, hwalk]
          constructor
          · intro hmem
            obtain ⟨hm, h3, j, hj, hh⟩ :=
              (ih (rest.drop (specExtend rest none))
                (i + 1 + specExtend rest none) hdlen s).mp hmem
            have hstart : i + 1 + specExtend rest none ≤ s.1 :=
              specWalkBlocksF_start fuel _ _ s hm
            refine ⟨List.mem_cons_of_mem _ hm, h3, j, hj, ?_⟩
            rw [show s.1 - (i + 1 + specExtend rest none) + j =
                s.1 - (i + (specExtend rest none + 1)) + j from by omega] at hh
            rw [lineAt_skip v rest (specExtend rest none) i s.1 j (by omega)] at hh
            exact hh
          · rintro ⟨hm, h3, j, hj, hh⟩
            rcases List.mem_cons.mp hm with hseq | htailm
            · exfalso
              have hs1 : s.1 = i := by rw [hseq]
              have hs2 : s.2 = specExtend rest none + 1 := by rw [hseq]
              rw [hs1, Nat.sub_self, Nat.zero_add] at hh
              have hjlt : j < specExtend (v :: rest) none := by
                rw [hn]; rw [hs2] at hj; exact hj
              have := (hallwild j hjlt).2
              rw [this] at hh
              exact Bool.noConfusion hh
            · have hstart : i + 1 + specExtend rest none ≤ s.1 :=
                specWalkBlocksF_start fuel _ _ s htailm
              refine (ih (rest.drop (specExtend rest none))
                (i + 1 + specExtend rest none) hdlen s).mpr ⟨htailm, h3, j, hj, ?_⟩
              rw [show s.1 - (i + 1 + specExtend rest none) + j =
                  s.1 - (i + (specExtend rest none + 1)) + j from by omega,
                lineAt_skip v rest (specExtend rest none) i s.1 j (by omega)]
              exact hh
        · -- colored block: walk and scanner consume the same cells
          have hge : (0 : Int) ≤ pickRunColor (v :: rest) := by omega
          have hn : specExtend (v :: rest) none =
              countMatching (pickRunColor (v :: rest)) rest + 1 :=
            specExtend_colored_head v rest (pickRunColor (v :: rest)) hv rfl hge
          have hdlen :
              (rest.drop (countMatching (pickRunColor (v :: rest)) rest)).length ≤ fuel := by
            rw [List.length_drop]; omega
          have hwalk : specWalkBlocksF (fuel + 1) (v :: rest) i =
              (i, countMatching (pickRunColor (v :: rest)) rest + 1) ::
                specWalkBlocksF fuel
                  (rest.drop (countMatching (pickRunColor (v :: rest)) rest))
                  (i + (countMatching (pickRunColor (v :: rest)) rest + 1)) := by
            simp only [specWalkBlocksF]
            rw [if_neg hv, hn, List.drop_succ_cons]
          have hscan : scanSegsF (fuel + 1) (v :: rest) i =
              if 3 ≤ countMatching (pickRunColor (v :: rest)) rest + 1 then
                (i, countMatching (pickRunColor (v :: rest)) rest + 1) ::
                  scanSegsF fuel
                    (rest.drop (countMatching (pickRunColor (v :: rest)) rest))
                    (i + (countMatching (pickRunColor (v :: rest)) rest + 1))
              else
                scanSegsF fuel
                  (rest.drop (countMatching (pickRunColor (v :: rest)) rest))
                  (i + (countMatching (pickRunColor (v :: rest)) rest + 1)) := by
            simp only [scanSegsF]
            rw [if_neg hv, if_neg hcol]
          have headReal : ∃ j, j < countMatching (pickRunColor (v :: rest)) rest + 1 ∧
              isHypercube (lineAt (v :: rest) j) = false := by
            by_cases hhv : isHypercube v = true
            · have hcolor : pickRunColorTail rest = pickRunColor (v :: rest) :=
                (pickRunColor_cons_hyper v rest hhv).symm
              obtain ⟨t, ht1, ht2, _⟩ :=
                pickRunColorTail_spec rest (pickRunColor (v :: rest)) hcolor hge
              refine ⟨t + 1, by omega, ?_⟩
              rw [lineAt_cons_succ]
              exact ht2
            · refine ⟨0, by omega, ?_⟩
              rw [lineAt_cons_zero]
              simpa using hhv
          rw [hscan, hwalk]
          constructor
          · intro hmem
            by_cases h3k : 3 ≤ countMatching (pickRunColor (v :: rest)) rest + 1
            · rw [if_pos h3k] at hmem
              rcases List.mem_cons.mp hmem with hseq | htailm
              · have hs1 : s.1 = i := by rw [hseq]
                have hs2 : s.2 = countMatching (pickRunColor (v :: rest)) rest + 1 := by
                  rw [hseq]
                refine ⟨by rw [hseq]; exact List.mem_cons_self _ _,
                  by rw [hs2]; exact h3k, ?_⟩
                obtain ⟨j, hj, hh⟩ := headReal
                refine ⟨j, by rw [hs2]; exact hj, ?_⟩
                rw [hs1, Nat.sub_self, Nat.zero_add]
                exact hh
              · obtain ⟨hm, h3, j, hj, hh⟩ := (ih _ _ hdlen s).mp htailm
                have hstart :
                    i + (countMatching (pickRunColor (v :: rest)) rest + 1) ≤ s.1 :=
                  specWalkBlocksF_start fuel _ _ s hm
                refine ⟨List.mem_cons_of_mem _ hm, h3, j, hj, ?_⟩
                rw [lineAt_skip v rest _ i s.1 j hstart] at hh
                exact hh
            · rw [if_neg h3k] at hmem
              obtain ⟨hm, h3, j, hj, hh⟩ := (ih _ _ hdlen s).mp hmem
              have hstart :
                  i + (countMatching (pickRunColor (v :: rest)) rest + 1) ≤ s.1 :=
                specWalkBlocksF_start fuel _ _ s hm
              refine ⟨List.mem_cons_of_mem _ hm, h3, j, hj, ?_⟩
              rw [lineAt_skip v rest _ i s.1 j hstart] at hh
              exact hh
          · rintro ⟨hm, h3, j, hj, hh⟩
            rcases List.mem_cons.mp hm with hseq | htailm
            · have hs2 : s.2 = countMatching (pickRunColor (v :: rest)) rest + 1 := by
                rw [hseq]
              have h3k : 3 ≤ countMatching (pickRunColor (v :: rest)) rest + 1 := by
                rw [← hs2]; exact h3
              rw [if_pos h3k]
              rw [hseq]
              exact List.mem_cons_self _ _
            · have hstart :
                  i + (countMatching (pickRunColor (v :: rest)) rest + 1) ≤ s.1 :=
                specWalkBlocksF_start fuel _ _ s htailm
              have hmem : s ∈ scanSegsF fuel
                  (rest.drop (countMatching (pickRunColor (v :: rest)) rest))
                  (i + (countMatching (pickRunColor (v :: rest)) rest + 1)) := by
                refine (ih _ _ hdlen s).mpr ⟨htailm, h3, j, hj, ?_⟩
                rw [lineAt_skip v rest _ i s.1 j hstart]
                exact hh
              by_cases h3k : 3 ≤ countMatching (pickRunColor (v :: rest)) rest + 1
              · rw [if_pos h3k]
                exact List.mem_cons_of_mem _ hmem
              · rw [if_neg h3k]
                exact hmem

/-- Membership in the scanner's output, stated against the walk of the
specification. -/
theorem mem_scanSegs_iff (l : List Int) (s : Nat × Nat) :
    s ∈ scanSegs l ↔ s ∈ specWalkBlocks l ∧ specQualifies l s :=
  scanSegsF_eq_specWalk l.length l 0 (Nat.le_refl _) s

/-- Segments of the all-wildcard special case of
`findWildcardRunsInLine` cover only non-empty cells. -/
theorem allWildSegsF_spec :
    ∀ (fuel : Nat) (l : List Int) (i : Nat) (s : Nat × Nat),
      s ∈ allWildSegsF fuel l i →
      i ≤ s.1 ∧ (∀ j, j < s.2 → 0 ≤ lineAt l (s.1 - i + j)) := by
  intro fuel
  induction fuel with
  | zero => intro l i s hs; simp [allWildSegsF] at hs
  | succ fuel ih =>
    intro l i s hs
    cases l with
    | nil => simp [allWildSegsF] at hs
    | cons v rest =>
      simp only [allWildSegsF] at hs
      by_cases hv : v < 0
      · rw [if_pos hv] at hs
        obtain ⟨h1, h2⟩ := ih rest (i + 1) s hs
        exact ⟨by omega, fun j hj => by
          rw [← lineAt_skip1 v rest i s.1 j h1]; exact h2 j hj⟩
      · rw [if_neg hv] at hs
        have tailCase : s ∈ allWildSegsF fuel (rest.drop (countNonNeg rest))
            (i + (countNonNeg rest + 1)) →
            i ≤ s.1 ∧ (∀ j, j < s.2 → 0 ≤ lineAt (v :: rest) (s.1 - i + j)) := by
          intro hs'
          obtain ⟨h1, h2⟩ := ih _ _ s hs'
          exact ⟨by omega, fun j hj => by
            rw [← lineAt_skip v rest _ i s.1 j h1]; exact h2 j hj⟩
        by_cases hlen : 3 ≤ countNonNeg rest + 1
        · rw [if_pos hlen] at hs
          rcases List.mem_cons.mp hs with hseq | htail
          · have hs1 : s.1 = i := by rw [hseq]
            have hs2 : s.2 = countNonNeg rest + 1 := by rw [hseq]
            refine ⟨by omega, ?_⟩
            intro j hj
            rw [hs1, Nat.sub_self, Nat.zero_add]
            rw [hs2] at hj
            cases j with
            | zero => rw [lineAt_cons_zero]; omega
            | succ j => rw [lineAt_cons_succ]; exact countNonNeg_lt rest j (by omega)
          · exact tailCase htail
        · rw [if_neg hlen] at hs
          exact tailCase hs

/-- Segments of the per-color loop of `findWildcardRunsInLine` cover
only wild-or-that-color (hence non-empty) cells. -/
theorem colorRunsF_spec :
    ∀ (fuel : Nat) (color : Int) (l : List Int) (i : Nat) (s : Nat × Nat),
      s ∈ colorRunsF fuel color l i →
      i ≤ s.1 ∧ (∀ j, j < s.2 → goodForColor color (lineAt l (s.1 - i + j)) = true) := by
  intro fuel
  induction fuel with
  | zero => intro color l i s hs; simp [colorRunsF] at hs
  | succ fuel ih =>
    intro color l i s hs
    cases l with
    | nil => simp [colorRunsF] at hs
    | cons v rest =>
      simp only [colorRunsF] at hs
      by_cases hgood : goodForColor color v = true
      · rw [if_pos hgood] at hs
        have tailCase : s ∈ colorRunsF fuel color (rest.drop (countGood color rest))
            (i + (countGood color rest + 1)) →
            i ≤ s.1 ∧
              (∀ j, j < s.2 → goodForColor color (lineAt (v :: rest) (s.1 - i + j)) = true) := by
          intro hs'
          obtain ⟨h1, h2⟩ := ih color _ _ s hs'
          exact ⟨by omega, fun j hj => by
            rw [← lineAt_skip v rest _ i s.1 j h1]; exact h2 j hj⟩
        by_cases hlen : 3 ≤ countGood color rest + 1
        · rw [if_pos hlen] at hs
          rcases List.mem_cons.mp hs with hseq | htail
          · have hs1 : s.1 = i := by rw [hseq]
            have hs2 : s.2 = countGood color rest + 1 := by rw [hseq]
            refine ⟨by omega, ?_⟩
            intro j hj
            rw [hs1, Nat.sub_self, Nat.zero_add]
            rw [hs2] at hj
            cases j with
            | zero => rw [lineAt_cons_zero]; exact hgood
            | succ j => rw [lineAt_cons_succ]; exact countGood_lt color rest j (by omega)
          · exact tailCase htail
        · rw [if_neg hlen] at hs
          exact tailCase hs
      · rw [if_neg hgood] at hs
        obtain ⟨h1, h2⟩ := ih color rest (i + 1) s hs
        exact ⟨by omega, fun j hj => by
          rw [← lineAt_skip1 v rest i s.1 j h1]; exact h2 j hj⟩

/-- Every segment of the rock-era line scanner covers only non-empty
cells. -/
theorem findWildcardRunsInLine_nonneg (l : List Int) (s : Nat × Nat)
    (hs : s ∈ findWildcardRunsInLine l) :
    ∀ j, j < s.2 → 0 ≤ lineAt l (s.1 + j) := by
  unfold findWildcardRunsInLine at hs
  split_ifs at hs with hcl
  · intro j hj
    have h := (allWildSegsF_spec l.length l 0 s hs).2 j hj
    simpa using h
  · obtain ⟨color, _, hmem⟩ := List.mem_flatMap.mp hs
    intro j hj
    have h := (colorRunsF_spec l.length color l 0 s hmem).2 j hj
    have h' := (goodForColor_true (by simpa using h)).1
    simpa using h'

/-- Unfolding of the in-bounds test. -/
theorem inBoundsB_iff (b : BoardI) (r c : Int) :
    inBoundsB b r c = true ↔
      0 ≤ r ∧ r < (b.rows : Int) ∧ 0 ≤ c ∧ c < (b.cols : Int) := by
  simp [inBoundsB, Bool.and_eq_true, decide_eq_true_eq, and_assoc]

/-- Membership in the row-major position list is exactly being in
bounds. -/
theorem mem_allPos {rows cols : Nat} {p : Int × Int} :
    p ∈ allPos rows cols ↔
      0 ≤ p.1 ∧ p.1 < (rows : Int) ∧ 0 ≤ p.2 ∧ p.2 < (cols : Int) := by
  constructor
  · intro h
    obtain ⟨r, hr, h2⟩ := List.mem_flatMap.mp h
    obtain ⟨c, hc, h3⟩ := List.mem_map.mp h2
    rw [List.mem_range] at hr hc
    subst h3
    refine ⟨Int.natCast_nonneg r, ?_, Int.natCast_nonneg c, ?_⟩
    · show ((r : Nat) : Int) < (rows : Int)
      exact_mod_cast hr
    · show ((c : Nat) : Int) < (cols : Int)
      exact_mod_cast hc
  · rintro ⟨h1, h2, h3, h4⟩
    cases p with
    | mk x y =>
      refine List.mem_flatMap.mpr ⟨x.toNat, List.mem_range.mpr (by omega),
        List.mem_map.mpr ⟨y.toNat, List.mem_range.mpr (by omega), ?_⟩⟩
      rw [Prod.mk.injEq]
      constructor
      · show ((x.toNat : Nat) : Int) = x
        omega
      · show ((y.toNat : Nat) : Int) = y
        omega

/-- Membership in a fold that conditionally collects `g p` without
duplicates (the accumulation pattern of `diamondWipeColors`). -/
theorem mem_foldl_collect {α β : Type} [DecidableEq β] (P : α → Bool) (g : α → β) :
    ∀ (l : List α) (acc : List β) (x : β),
      (x ∈ l.foldl (fun acc p =>
        if P p then (if g p ∈ acc then acc else acc ++ [g p]) else acc) acc) ↔
      x ∈ acc ∨ ∃ p, p ∈ l ∧ P p = true ∧ x = g p := by
  intro l
  induction l with
  | nil => intro acc x; simp
  | cons a l ih =>
    intro acc x
    rw [List.foldl_cons, ih]
    have hacc : (x ∈ (if P a then (if g a ∈ acc then acc else acc ++ [g a]) else acc)) ↔
        x ∈ acc ∨ (P a = true ∧ x = g a) := by
      by_cases hp : P a = true
      · by_cases hg : g a ∈ acc
        · simp only [hp, if_true, hg]
          constructor
          · exact Or.inl
          · rintro (h | ⟨_, rfl⟩)
            exacts [h, hg]
        · simp only [hp, if_true, hg, if_false, List.mem_append, List.mem_singleton]
          tauto
      · rw [Bool.not_eq_true] at hp
        simp [hp]
    rw [hacc]
    constructor
    · rintro (h | ⟨p, hp, h1, h2⟩)
      · rcases h with h' | ⟨h1, h2⟩
        · exact Or.inl h'
        · exact Or.inr ⟨a, List.mem_cons_self a l, h1, h2⟩
      · exact Or.inr ⟨p, List.mem_cons_of_mem a hp, h1, h2⟩
    · rintro (h | ⟨p, hp, h1, h2⟩)
      · exact Or.inl (Or.inl h)
      · rcases List.mem_cons.mp hp with rfl | hp'
        · exact Or.inl (Or.inr ⟨h1, h2⟩)
        · exact Or.inr ⟨p, hp', h1, h2⟩

/-- The `wipe` list holds exactly the stored base colors of the masked
in-bounds diamond cells. -/
theorem mem_diamondWipeColors (b : BoardI) (m : ClearMask) (x : Int) :
    x ∈ diamondWipeColors b m ↔
      ∃ q : Int × Int, inBoundsB b q.1 q.2 = true ∧ mAt m q.1 q.2 = true ∧
        isDiamondRock (b.cell q.1 q.2) = true ∧ x = baseColor (b.cell q.1 q.2) := by
  refine (mem_foldl_collect
    (fun p => mAt m p.1 p.2 && isDiamondRock (b.cell p.1 p.2))
    (fun p => baseColor (b.cell p.1 p.2)) (allPos b.rows b.cols) [] x).trans ?_
  simp only [List.not_mem_nil, false_or, mem_allPos, Bool.and_eq_true]
  constructor
  · rintro ⟨p, ⟨h1, h2, h3, h4⟩, ⟨hm, hd⟩, hx⟩
    exact ⟨p, (inBoundsB_iff b p.1 p.2).mpr ⟨h1, h2, h3, h4⟩, hm, hd, hx⟩
  · rintro ⟨q, hin, hm, hd, hx⟩
    obtain ⟨h1, h2, h3, h4⟩ := (inBoundsB_iff b q.1 q.2).mp hin
    exact ⟨q, ⟨h1, h2, h3, h4⟩, ⟨hm, hd⟩, hx⟩

/-- **C2 (amended).**  In the diamond expansion used by `clearAndScore`,
the colors wiped board-wide are exactly the *stored base colors of the
masked diamond cells themselves*: after `expandForDiamondRocks`, a cell
is masked iff it was already masked, or it is an in-bounds non-empty
cell whose base color equals the stored base color of some masked
in-bounds diamond.  The match partner's colors are never collected —
the Wildcard's own stored color is the wipe anchor. -/
theorem expandForDiamondRocks_uses_diamond_colors (b : BoardI) (m : ClearMask)
    (r c : Int) :
    mAt (expandForDiamondRocks b m) r c = true ↔
      mAt m r c = true ∨
      (inBoundsB b r c = true ∧ 0 ≤ b.cell r c ∧
        ∃ q : Int × Int, inBoundsB b q.1 q.2 = true ∧ mAt m q.1 q.2 = true ∧
          isDiamondRock (b.cell q.1 q.2) = true ∧
          baseColor (b.cell r c) = baseColor (b.cell q.1 q.2)) := by
  by_cases hw : diamondWipeColors b m = []
  · have hbody : expandForDiamondRocks b m = m := by
      simp only [expandForDiamondRocks]
      rw [if_pos hw]
    rw [hbody]
    constructor
    · exact Or.inl
    · rintro (h | ⟨_, _, q, hq1, hq2, hq3, _⟩)
      · exact h
      · exact absurd ((mem_diamondWipeColors b m _).mpr ⟨q, hq1, hq2, hq3, rfl⟩)
          (by simp [hw])
  · have hbody : expandForDiamondRocks b m =
        m ++ (allPos b.rows b.cols).filter fun p =>
          0 ≤ b.cell p.1 p.2 &&
            decide (baseColor (b.cell p.1 p.2) ∈ diamondWipeColors b m) := by
      simp only [expandForDiamondRocks]
      rw [if_neg hw]
    rw [hbody]
    have hsplit : mAt (m ++ (allPos b.rows b.cols).filter fun p =>
          0 ≤ b.cell p.1 p.2 &&
            decide (baseColor (b.cell p.1 p.2) ∈ diamondWipeColors b m)) r c = true ↔
        mAt m r c = true ∨
        (inBoundsB b r c = true ∧ 0 ≤ b.cell r c ∧
          baseColor (b.cell r c) ∈ diamondWipeColors b m) := by
      rw [inBoundsB_iff]
      simp only [mAt, decide_eq_true_eq, List.mem_append, List.mem_filter,
        Bool.and_eq_true, decide_eq_true_eq, mem_allPos]
    rw [hsplit]
    constructor
    · rintro (h | ⟨hin, hge, hmem⟩)
      · exact Or.inl h
      · obtain ⟨q, hq⟩ := (mem_diamondWipeColors b m _).mp hmem
        exact Or.inr ⟨hin, hge, q, hq.1, hq.2.1, hq.2.2.1, hq.2.2.2⟩
    · rintro (h | ⟨hin, hge, q, hq1, hq2, hq3, hbc⟩)
      · exact Or.inl h
      · exact Or.inr ⟨hin, hge,
          (mem_diamondWipeColors b m _).mpr ⟨q, hq1, hq2, hq3, hbc⟩⟩

/-- **C2 witness.**  On `diamondWipeBoard` with the base mask, the
unmasked color-4 cell (0,3) is wiped because the masked diamond (0,0)
stores base color 4. -/
theorem expandForDiamondRocks_uses_diamond_colors_witness :
    mAt (expandForDiamondRocks diamondWipeBoard
      (buildBaseMask diamondWipeBoard diamondWipeMatches)) 0 3 = true :=
  (expandForDiamondRocks_uses_diamond_colors diamondWipeBoard
      (buildBaseMask diamondWipeBoard diamondWipeMatches) 0 3).mpr
    (Or.inr ⟨by decide, by decide,
      ⟨(0, 0), by decide, by decide, by decide, by decide⟩⟩)

/-- The cell formula of `applyClearMask`, by unfolding. -/
theorem applyClearMask_cell (b : BoardI) (m : ClearMask) (r c : Int) :
    (applyClearMask b m).1.cell r c =
      if (inBoundsB b r c && mAt m r c && decide (0 ≤ b.cell r c)) = true then -1
      else b.cell r c := rfl

/-- The board after `applySpecialCreation` differs from the input board
at most at the placement cell of the created special. -/
theorem applySpecialCreation_cell_cases (b : BoardI) (m : ClearMask)
    (o : Option SpecialRock) (r c : Int) :
    (applySpecialCreation b m o).1.cell r c = b.cell r c ∨
    ∃ s, o = some s ∧ r = s.r ∧ c = s.c := by
  cases o with
  | none => exact Or.inl rfl
  | some s =>
    by_cases hp : r = s.r ∧ c = s.c
    · exact Or.inr ⟨s, rfl, hp.1, hp.2⟩
    · refine Or.inl ?_
      simp only [applySpecialCreation]
      split_ifs <;> simp [setCell, hp]

/-- Any value produced by the diamond phase of `pickSpecialRock` is a
diamond. -/
theorem diamondTry_type (b : BoardI) (m : ClearMask) (pref : Option (Int × Int))
    (run : Run) (s : SpecialRock) (h : diamondTry b m pref run = some s) :
    s.type = RockType.diamond := by
  simp only [diamondTry] at h
  split_ifs at h with h1 h2
  cases h
  rfl

/-- **C5.**  Special creation is exclusive and diamond-first.  First
conjunct: a `clearAndScore` call changes a cell either to Empty (`-1`)
or to the unique placement cell chosen by `pickSpecialRock` — so at
most one special tile is created per call, however many qualifying runs
exist.  Second conjunct: whenever any run of length ≥ 5 has a matched
placement cell, `pickSpecialRock` returns a Wildcard (diamond), so no
4-run can yield an AreaClear (star) in that case. -/
theorem clearAndScore_one_special_diamond_first :
    (∀ (b : BoardI) (ms : List (Int × Int)) (pref : Option (Int × Int)) (r c : Int),
      (clearAndScore b ms pref).board.cell r c ≠ b.cell r c →
      (clearAndScore b ms pref).board.cell r c = -1 ∨
      ∃ s, pickSpecialRock b (buildBaseMask b ms) pref = some s ∧
        r = s.r ∧ c = s.c) ∧
    (∀ (b : BoardI) (m : ClearMask) (pref : Option (Int × Int)) (run : Run),
      run ∈ findAllRuns b → 5 ≤ run.len →
      isMatched b m (choosePlacement b m pref run runCenter).1
        (choosePlacement b m pref run runCenter).2 = true →
      ∃ s, pickSpecialRock b m pref = some s ∧ s.type = RockType.diamond) := by
  constructor
  · intro b ms pref r c hne
    by_cases hemp : ms.isEmpty
    · simp [clearAndScore, hemp] at hne
    · have hb : (clearAndScore b ms pref).board =
          (applyClearMask
            (applySpecialCreation b (buildBaseMask b ms)
              (pickSpecialRock b (buildBaseMask b ms) pref)).1
            (expandForDiamondRocks
              (applySpecialCreation b (buildBaseMask b ms)
                (pickSpecialRock b (buildBaseMask b ms) pref)).1
              (expandForStarRocks
                (applySpecialCreation b (buildBaseMask b ms)
                  (pickSpecialRock b (buildBaseMask b ms) pref)).1
                (applySpecialCreation b (buildBaseMask b ms)
                  (pickSpecialRock b (buildBaseMask b ms) pref)).2))).1 := by
        simp [clearAndScore, hemp]
      rw [hb] at hne ⊢
      by_cases hcl :
        (inBoundsB (applySpecialCreation b (buildBaseMask b ms)
            (pickSpecialRock b (buildBaseMask b ms) pref)).1 r c &&
          mAt (expandForDiamondRocks
              (applySpecialCreation b (buildBaseMask b ms)
                (pickSpecialRock b (buildBaseMask b ms) pref)).1
              (expandForStarRocks
                (applySpecialCreation b (buildBaseMask b ms)
                  (pickSpecialRock b (buildBaseMask b ms) pref)).1
                (applySpecialCreation b (buildBaseMask b ms)
                  (pickSpecialRock b (buildBaseMask b ms) pref)).2)) r c &&
          0 ≤ (applySpecialCreation b (buildBaseMask b ms)
            (pickSpecialRock b (buildBaseMask b ms) pref)).1.cell r c) = true
      · exact Or.inl (by rw [applyClearMask_cell, if_pos hcl])
      · have hcell : (applyClearMask
            (applySpecialCreation b (buildBaseMask b ms)
              (pickSpecialRock b (buildBaseMask b ms) pref)).1
            (expandForDiamondRocks
              (applySpecialCreation b (buildBaseMask b ms)
                (pickSpecialRock b (buildBaseMask b ms) pref)).1
              (expandForStarRocks
                (applySpecialCreation b (buildBaseMask b ms)
                  (pickSpecialRock b (buildBaseMask b ms) pref)).1
                (applySpecialCreation b (buildBaseMask b ms)
                  (pickSpecialRock b (buildBaseMask b ms) pref)).2))).1.cell r c =
            (applySpecialCreation b (buildBaseMask b ms)
              (pickSpecialRock b (buildBaseMask b ms) pref)).1.cell r c := by
          rw [applyClearMask_cell, if_neg hcl]
        rw [hcell] at hne ⊢
        rcases applySpecialCreation_cell_cases b (buildBaseMask b ms)
            (pickSpecialRock b (buildBaseMask b ms) pref) r c with h | h
        · exact absurd h hne
        · exact Or.inr h
  · intro b m pref run hrun hlen hmat
    have hf : diamondTry b m pref run =
        some ⟨(choosePlacement b m pref run runCenter).1,
          (choosePlacement b m pref run runCenter).2, RockType.diamond⟩ := by
      simp [diamondTry, hlen, hmat]
    cases hd : (findAllRuns b).findSome? (diamondTry b m pref) with
    | none =>
      exact absurd hf (by simp [List.findSome?_eq_none_iff.mp hd run hrun])
    | some s =>
      obtain ⟨x, _, hfx⟩ := List.exists_of_findSome?_eq_some hd
      exact ⟨s, by simp [pickSpecialRock, hd], diamondTry_type b m pref x s hfx⟩

/-- **C5 witness.**  On the 1×5 all-color-0 board: the cell (0,2)
changes (it becomes the diamond), and the length-5 run forces a
diamond. -/
theorem clearAndScore_one_special_diamond_first_witness :
    ((clearAndScore fiveRunBoard fiveRunMatches none).board.cell 0 2 = -1 ∨
      ∃ s, pickSpecialRock fiveRunBoard (buildBaseMask fiveRunBoard fiveRunMatches)
        none = some s ∧ (0 : Int) = s.r ∧ (2 : Int) = s.c) ∧
    (∃ s, pickSpecialRock fiveRunBoard (buildBaseMask fiveRunBoard fiveRunMatches)
      none = some s ∧ s.type = RockType.diamond) :=
  ⟨clearAndScore_one_special_diamond_first.1 fiveRunBoard fiveRunMatches none 0 2
    (by decide),
   clearAndScore_one_special_diamond_first.2 fiveRunBoard
    (buildBaseMask fiveRunBoard fiveRunMatches) none
    ⟨RunKind.H, 0, 0, -1, 0, 5⟩ (by decide) (by decide) (by decide)⟩

/-- **C3 counterexample.**  The 1×3 line `[Wildcard, color 1, Wildcard]`
contains exactly one non-Wildcard tile, yet the scanner marks the whole
block — both drafts agree — contradicting the claim that a marked block
needs at least 2 non-Wildcard tiles of the adopted color. -/
theorem findMatchesMask_marks_single_real_tile :
    isHypercube (oneRealBoard.cell 0 0) = true ∧
    isHypercube (oneRealBoard.cell 0 1) = false ∧
    isHypercube (oneRealBoard.cell 0 2) = true ∧
    findMatchesMask2 oneRealBoard 0 0 = true ∧
    findMatchesMask2 oneRealBoard 0 1 = true ∧
    findMatchesMask2 oneRealBoard 0 2 = true ∧
    findMatchesMask1 oneRealBoard 0 0 = true ∧
    findMatchesMask1 oneRealBoard 0 1 = true ∧
    findMatchesMask1 oneRealBoard 0 2 = true := by
  decide

/-- **C3 (amended).**  The gem-era run scanner's marking, characterized
in both directions against the spec's walk.  (1) A cell is marked iff
it is in bounds and lies in a contiguous maximal block of the §4.1 walk
that has at least 3 cells and at least *1* non-Wildcard tile — so every
qualifying block is marked in full, and no other cell is marked.
(2) Every emitted block covers only non-empty cells, holds a
non-Wildcard, and all its non-Wildcards share the (non-negative)
adopted color.  (3) A line whose non-empty cells are all Wildcards
yields no segment, so the gem-era scanner never marks an all-Wildcard
block.  (4) The rock-era draft diverges on exactly that point: its
colors-empty special case marks every cell of the all-Wildcard line
`[◆, ◆, ◆]`, which the gem-era scanner leaves unmarked. -/
theorem findMatchesMask2_run_characterization :
    (∀ (b : BoardI) (r c : Int), findMatchesMask2 b r c = true ↔
      inBoundsB b r c = true ∧
      ((∃ s ∈ specWalkBlocks (rowLine b r),
          specQualifies (rowLine b r) s ∧ inSeg c s = true) ∨
       (∃ s ∈ specWalkBlocks (colLine b c),
          specQualifies (colLine b c) s ∧ inSeg r s = true))) ∧
    (∀ (l : List Int) (s : Nat × Nat), s ∈ scanSegs l →
      3 ≤ s.2 ∧
      (∀ j, j < s.2 → 0 ≤ lineAt l (s.1 + j)) ∧
      (∃ j, j < s.2 ∧ isHypercube (lineAt l (s.1 + j)) = false) ∧
      (∃ color, 0 ≤ color ∧ ∀ j, j < s.2 →
        isHypercube (lineAt l (s.1 + j)) = false →
        baseColor (lineAt l (s.1 + j)) = color)) ∧
    (∀ l : List Int, (∀ w ∈ l, 0 ≤ w → isHypercube w = true) →
      scanSegs l = []) ∧
    (findMatchesMask1 allWildBoard 0 0 = true ∧
     findMatchesMask1 allWildBoard 0 1 = true ∧
     findMatchesMask1 allWildBoard 0 2 = true ∧
     findMatchesMask2 allWildBoard 0 0 = false ∧
     findMatchesMask2 allWildBoard 0 1 = false ∧
     findMatchesMask2 allWildBoard 0 2 = false) := by
  refine ⟨?_, ?_, ?_, ?_⟩
  · intro b r c
    have base : findMatchesMask2 b r c = true ↔
        inBoundsB b r c = true ∧
        ((∃ s ∈ scanSegs (rowLine b r), inSeg c s = true) ∨
         (∃ s ∈ scanSegs (colLine b c), inSeg r s = true)) := by
      simp [findMatchesMask2, Bool.and_eq_true, Bool.or_eq_true, List.any_eq_true]
    rw [base]
    simp only [mem_scanSegs_iff]
    constructor
    · rintro ⟨hin, hcase⟩
      refine ⟨hin, ?_⟩
      rcases hcase with ⟨s, ⟨hm, hq⟩, hseg⟩ | ⟨s, ⟨hm, hq⟩, hseg⟩
      · exact Or.inl ⟨s, hm, hq, hseg⟩
      · exact Or.inr ⟨s, hm, hq, hseg⟩
    · rintro ⟨hin, hcase⟩
      refine ⟨hin, ?_⟩
      rcases hcase with ⟨s, hm, hq, hseg⟩ | ⟨s, hm, hq, hseg⟩
      · exact Or.inl ⟨s, ⟨hm, hq⟩, hseg⟩
      · exact Or.inr ⟨s, ⟨hm, hq⟩, hseg⟩
  · intro l s hs
    obtain ⟨_, h2, h3, h4, h5⟩ := scanSegsF_spec l.length l 0 s hs
    refine ⟨h2, ?_, ?_, ?_⟩
    · intro j hj
      have h := h3 j hj
      simpa using h
    · obtain ⟨j, hj, hh⟩ := h4
      exact ⟨j, hj, by simpa using hh⟩
    · obtain ⟨color, hc0, hc⟩ := h5
      refine ⟨color, hc0, fun j hj hnh => ?_⟩
      have := hc j hj (by simpa using hnh)
      simpa using this
  · intro l h
    exact scanSegsF_allHyper l.length l h 0
  · decide

/-- **C3 witness.**  Completeness exercised concretely: the walk block
`(0, 3)` of `[◆, 1, ◆]` qualifies with a single non-Wildcard, so the
characterization forces the scanner to mark cell (0,1); and the
all-Wildcard line emits no segment. -/
theorem findMatchesMask2_run_characterization_witness :
    findMatchesMask2 oneRealBoard 0 1 = true ∧ scanSegs [512, 512, 512] = [] :=
  ⟨(findMatchesMask2_run_characterization.1 oneRealBoard 0 1).mpr
     ⟨by decide, Or.inl ⟨(0, 3), by decide, ⟨by decide, 1, by decide, by decide⟩,
       by decide⟩⟩,
   findMatchesMask2_run_characterization.2.2.1 [512, 512, 512] (by decide)⟩

/-- **C10.**  Every cell marked by the rock-era `findMatchesMask` holds
a non-Empty tile at scan time, so the clear mask built from it only
targets occupied cells. -/
theorem findMatchesMask1_marks_nonEmpty (b : BoardI) (r c : Int)
    (h : findMatchesMask1 b r c = true) : 0 ≤ b.cell r c := by
  have h' : inBoundsB b r c = true ∧
      ((∃ s ∈ findWildcardRunsInLine (rowLine b r), inSeg c s = true) ∨
       (∃ s ∈ findWildcardRunsInLine (colLine b c), inSeg r s = true)) := by
    simpa [findMatchesMask1, Bool.and_eq_true, Bool.or_eq_true, List.any_eq_true]
      using h
  obtain ⟨hin, hcase⟩ := h'
  obtain ⟨h0r, hrlt, h0c, hclt⟩ := (inBoundsB_iff b r c).mp hin
  rcases hcase with ⟨s, hsmem, hseg⟩ | ⟨s, hsmem, hseg⟩
  · have hseg' : (s.1 : Int) ≤ c ∧ c < (s.1 : Int) + (s.2 : Int) := by
      simpa [inSeg, Bool.and_eq_true, decide_eq_true_eq] using hseg
    have hj : c.toNat - s.1 < s.2 := by omega
    have hnn := findWildcardRunsInLine_nonneg (rowLine b r) s hsmem (c.toNat - s.1) hj
    rw [show s.1 + (c.toNat - s.1) = c.toNat from by omega] at hnn
    rw [lineAt_rowLine b r c.toNat (by omega)] at hnn
    have hcast : Int.ofNat c.toNat = c := Int.toNat_of_nonneg h0c
    rwa [hcast] at hnn
  · have hseg' : (s.1 : Int) ≤ r ∧ r < (s.1 : Int) + (s.2 : Int) := by
      simpa [inSeg, Bool.and_eq_true, decide_eq_true_eq] using hseg
    have hj : r.toNat - s.1 < s.2 := by omega
    have hnn := findWildcardRunsInLine_nonneg (colLine b c) s hsmem (r.toNat - s.1) hj
    rw [show s.1 + (r.toNat - s.1) = r.toNat from by omega] at hnn
    rw [lineAt_colLine b c r.toNat (by omega)] at hnn
    have hcast : Int.ofNat r.toNat = r := Int.toNat_of_nonneg h0r
    rwa [hcast] at hnn

/-- **C10 witness.**  The mask marks (0,0) on the 1×5 run board, and
indeed that cell is non-Empty. -/
theorem findMatchesMask1_marks_nonEmpty_witness :
    findMatchesMask1 fiveRunBoard 0 0 = true ∧ 0 ≤ fiveRunBoard.cell 0 0 :=
  ⟨by decide, findMatchesMask1_marks_nonEmpty fiveRunBoard 0 0 (by decide)⟩

/-- **C6 witness.**  A legal swap on `swapDemoBoard` commits the
exchange; the illegal swap on `stableBoard` leaves it untouched. -/
theorem trySwap_atomic_exchange_witness :
    (trySwap swapDemoBoard 0 1 1 1).2 = swapCells swapDemoBoard 0 1 1 1 ∧
    (trySwap stableBoard 0 0 0 1).2 = stableBoard :=
  ⟨(trySwap_atomic_exchange swapDemoBoard 0 1 1 1).2.2.1 (by decide),
   (trySwap_atomic_exchange stableBoard 0 0 0 1).2.1 (by decide)⟩

end RockSwap

